import Mathlib

/-!
Verification of the JSON tree model and navigation engine of `rs-dev-tools`
(`src/modules/json_utils/mod.rs`), as a shallow embedding in Lean 4.

The embedding mirrors the Rust source:

* `Value` models `serde_json::Value` (numbers as decimals — sign, integer
  part, fraction digits; the object variant keeps insertion order, as the
  specification requires).
* `JsonTreeNode` and `JsonUtilsState` model the `JsonTreeNode` and `JsonUtils`
  structs.
* `build_tree_recursive`, `build_tree`, `get_visible_nodes`, `toggle_node`,
  `move_selection_up`, `move_selection_down`, `parse_json`,
  `create_temp_file_for_editing`, `open_in_neovim` and `check_file_changes`
  are translated function by function.

The Rust `get_visible_nodes` returns a `Vec<&JsonTreeNode>` of references into
`json_tree`, and callers recover positions with `std::ptr::eq`; for distinct
elements of a `Vec`, reference identity is exactly flat-index identity, so the
embedding represents a visible node by its flat index into `json_tree`.

Effects (clipboard, filesystem, subprocess, channel) are modelled by passing
the outcome of each external call as an explicit argument, mirroring the
`match`/`?` structure of the Rust code; the `serde_json` parse/format calls
are likewise passed in as `Except` outcomes.
-/

/-- Models `serde_json::Number` as the specification describes the Number
variant: a decimal (sign, integer part, and fraction digits, possibly none).
The crate's internal binary (`i64`/`u64`/`f64`) representation is external;
what crosses the parse/print boundary is the decimal literal this captures,
digit for digit. -/
structure Number where
  neg : Bool
  ip : Nat
  fr : List (Fin 10)

/-- The integer-valued number `n`. -/
def Number.ofNat (n : Nat) : Number := ⟨false, n, []⟩

/-- Models `serde_json::Value`.  `obj` keeps fields in insertion order. -/
inductive Value where
  | null : Value
  | bool : Bool → Value
  | num : Number → Value
  | str : String → Value
  | arr : List Value → Value
  | obj : List (String × Value) → Value

instance : Inhabited Value := ⟨Value.null⟩

/-- `serde_json::Value::is_object`. -/
def Value.is_object : Value → Bool
  | .obj _ => true
  | _ => false

/-- `serde_json::Value::is_array`. -/
def Value.is_array : Value → Bool
  | .arr _ => true
  | _ => false

/-- The `JsonTreeNode` struct of the source. -/
structure JsonTreeNode where
  key : String
  value : Value
  expanded : Bool
  depth : Nat
  path : String

instance : Inhabited JsonTreeNode :=
  ⟨{ key := "", value := .null, expanded := false, depth := 0, path := "" }⟩

/-- `ViewMode` of the source. -/
inductive ViewMode where
  | Raw : ViewMode
  | Tree : ViewMode

/-- The `JsonUtils` struct of the source.  The OS-level handles `temp_file`
(`NamedTempFile`) and `file_watcher_rx` (an mpsc receiver) are modelled by
their observable content: presence of a temp file, and the queue of pending
change notifications. -/
structure JsonUtilsState where
  raw_input : String
  formatted_json : String
  error_message : String
  is_valid : Bool
  view_mode : ViewMode
  json_tree : List JsonTreeNode
  selected_node : Nat
  parsed_value : Option Value
  temp_file : Option Unit
  file_watcher_rx : Option (List Unit)
  needs_terminal_reinit : Bool
  scroll_offset : Nat

/-- `JsonUtils::new()`. -/
def JsonUtils.new : JsonUtilsState where
  raw_input := ""
  formatted_json := ""
  error_message := ""
  is_valid := false
  view_mode := .Raw
  json_tree := []
  selected_node := 0
  parsed_value := none
  temp_file := none
  file_watcher_rx := none
  needs_terminal_reinit := false
  scroll_offset := 0

/-! ### Tree builder (`build_tree_recursive`, `build_tree`) -/

mutual

/-- `JsonUtils::build_tree_recursive`: pushes the node for `value`, then
recurses into object fields (in order) and array elements (by index).  The
Rust method pushes onto `self.json_tree`; the embedding returns the list of
nodes pushed. -/
def build_tree_recursive (value : Value) (key : String) (depth : Nat) (path : String) :
    List JsonTreeNode :=
  { key := key, value := value, expanded := decide (depth < 2), depth := depth, path := path } ::
    (match value with
     | .obj fields => build_tree_fields fields depth path
     | .arr elems => build_tree_elems elems 0 depth path
     | _ => [])

/-- The `for (k, v) in obj` loop of `build_tree_recursive`. -/
def build_tree_fields (fields : List (String × Value)) (depth : Nat) (path : String) :
    List JsonTreeNode :=
  match fields with
  | [] => []
  | (k, v) :: rest =>
      let new_path := if path == "root" then k else path ++ "." ++ k
      build_tree_recursive v k (depth + 1) new_path ++ build_tree_fields rest depth path

/-- The `for (i, v) in arr.iter().enumerate()` loop of `build_tree_recursive`. -/
def build_tree_elems (elems : List Value) (i : Nat) (depth : Nat) (path : String) :
    List JsonTreeNode :=
  match elems with
  | [] => []
  | v :: rest =>
      let new_path := if path == "root" then "[" ++ toString i ++ "]"
                      else path ++ "[" ++ toString i ++ "]"
      build_tree_recursive v ("[" ++ toString i ++ "]") (depth + 1) new_path ++
        build_tree_elems rest (i + 1) depth path

end

/-- The flat node list built by `JsonUtils::build_tree` for a value:
`build_tree_recursive(value, "", 0, "root")` into a cleared `json_tree`. -/
def build_tree_list (value : Value) : List JsonTreeNode :=
  build_tree_recursive value "" 0 "root"

/-- `JsonUtils::build_tree`: clears the tree, resets the selection to 0, and
rebuilds from the value. -/
def build_tree (value : Value) (s : JsonUtilsState) : JsonUtilsState :=
  { s with json_tree := build_tree_list value, selected_node := 0 }

/-! ### Visibility resolver (`get_visible_nodes`) -/

/-- The update of `skip_depth` performed after pushing a node in
`get_visible_nodes`: a collapsed container starts suppressing everything
strictly deeper than it. -/
def nextSkip (node : JsonTreeNode) : Option Nat :=
  if (node.value.is_object || node.value.is_array) && !node.expanded then some node.depth
  else none

/-- The scan loop body of `get_visible_nodes`, with `i` the flat index of the
first node of `nodes` and `skip_depth` the current suppression threshold.
Emitted nodes are identified by flat index (see the header comment). -/
def getVisibleAux (i : Nat) (skip_depth : Option Nat) (nodes : List JsonTreeNode) : List Nat :=
  match nodes with
  | [] => []
  | node :: rest =>
    match skip_depth with
    | some d =>
        if node.depth > d then getVisibleAux (i + 1) (some d) rest
        else i :: getVisibleAux (i + 1) (nextSkip node) rest
    | none => i :: getVisibleAux (i + 1) (nextSkip node) rest

/-- `JsonUtils::get_visible_nodes`, as the list of flat indices of the
emitted nodes. -/
def get_visible_nodes (tree : List JsonTreeNode) : List Nat :=
  getVisibleAux 0 none tree

/-- The final value of `skip_depth` after scanning `nodes`; used to reason
about the scan compositionally. -/
def scanSkip (skip_depth : Option Nat) (nodes : List JsonTreeNode) : Option Nat :=
  match nodes with
  | [] => skip_depth
  | node :: rest =>
    match skip_depth with
    | some d =>
        if node.depth > d then scanSkip (some d) rest
        else scanSkip (nextSkip node) rest
    | none => scanSkip (nextSkip node) rest

/-- The node of `tree` at flat index `i` (default node out of range); models
the bounds-guarded `self.json_tree[i]` indexing of the source. -/
def nodeAt (tree : List JsonTreeNode) (i : Nat) : JsonTreeNode :=
  tree.getD i default

/-! ### Navigation controller (`toggle_node`, `move_selection_up`,
`move_selection_down`) -/

/-- `JsonUtils::toggle_node`. -/
def toggle_node (s : JsonUtilsState) : JsonUtilsState :=
  if s.selected_node < s.json_tree.length then
    let node := nodeAt s.json_tree s.selected_node
    if node.value.is_object || node.value.is_array then
      { s with json_tree :=
          s.json_tree.set s.selected_node { node with expanded := !node.expanded } }
    else s
  else s

/-- `JsonUtils::move_selection_up`.  `visible.findIdx? (· == selected)` is the
Rust `position(|node| ptr::eq ... == Some(selected))`, and `.getD 0` is
`unwrap_or(0)`. -/
def move_selection_up (s : JsonUtilsState) : JsonUtilsState :=
  let visible := get_visible_nodes s.json_tree
  if visible.isEmpty then s
  else
    let current := (visible.findIdx? (fun idx => idx == s.selected_node)).getD 0
    if current > 0 then
      match visible[current - 1]? with
      | some new_index => { s with selected_node := new_index }
      | none => s
    else s

/-- `JsonUtils::move_selection_down`. -/
def move_selection_down (s : JsonUtilsState) : JsonUtilsState :=
  let visible := get_visible_nodes s.json_tree
  if visible.isEmpty then s
  else
    let current := (visible.findIdx? (fun idx => idx == s.selected_node)).getD 0
    if current < visible.length - 1 then
      match visible[current + 1]? with
      | some new_index => { s with selected_node := new_index }
      | none => s
    else s

/-! ### Parse/format pipeline (`parse_json`) -/

/-- `JsonUtils::parse_json`.  The two `serde_json` calls are external; their
outcomes are passed in: `parse_res` is `serde_json::from_str(&self.raw_input)`
and `fmt_res value` is `serde_json::to_string_pretty(&value)`. -/
def parse_json (parse_res : Except String Value) (fmt_res : Value → Except String String)
    (s : JsonUtilsState) : JsonUtilsState :=
  match parse_res with
  | .ok value =>
    match fmt_res value with
    | .ok formatted =>
        let s := { s with formatted_json := formatted, is_valid := true,
                          error_message := "", parsed_value := some value }
        let s := build_tree value s
        { s with scroll_offset := 0 }
    | .error e =>
        { s with error_message := "Format error: " ++ e, is_valid := false,
                 parsed_value := none }
  | .error e =>
      { s with error_message := "Invalid JSON: " ++ e, is_valid := false,
               formatted_json := "", parsed_value := none, json_tree := [] }

/-! ### Edit session manager (`create_temp_file_for_editing`,
`open_in_neovim`, `check_file_changes`) -/

/-- Outcomes of the external calls made by `create_temp_file_for_editing` and
`open_in_neovim`: temp-file creation, the `fs::write`, watcher setup, the
`Command::status` call (`.error` = failed to spawn, `.ok b` = exited with
`success() = b`), the final `fs::read_to_string`, and the `serde_json`
outcomes used if a re-parse is triggered. -/
structure EditEnv where
  temp_res : Except String Unit
  write_res : Except String Unit
  watch_res : Except String Unit
  status_res : Except String Bool
  read_res : Except String String
  parse_res : Except String Value
  fmt_res : Value → Except String String
  path_str : String

/-- `JsonUtils::create_temp_file_for_editing`.  `?` on a failing external
call propagates the error. -/
def create_temp_file_for_editing (env : EditEnv) (s : JsonUtilsState) :
    Except String JsonUtilsState :=
  if s.raw_input = "" then
    .ok { s with error_message := "No JSON content to edit" }
  else
    match env.temp_res with
    | .error e => .error e
    | .ok _ =>
      match env.write_res with
      | .error e => .error e
      | .ok _ =>
        match env.watch_res with
        | .error e => .error e
        | .ok _ =>
          .ok { s with
                error_message := "Edit this file: " ++ env.path_str ++
                  "\nFile is being watched for changes...",
                temp_file := some (),
                file_watcher_rx := some [] }

/-- `JsonUtils::open_in_neovim`.  Note that the `Command::status()?` call
propagates a spawn failure out of the method, while a non-zero exit status
only sets `error_message` and continues to the reconciliation step. -/
def open_in_neovim (env : EditEnv) (s : JsonUtilsState) : Except String JsonUtilsState :=
  if s.raw_input = "" then
    .ok { s with error_message := "No JSON content to edit" }
  else
    match env.temp_res with
    | .error e => .error e
    | .ok _ =>
      match env.write_res with
      | .error e => .error e
      | .ok _ =>
        match env.watch_res with
        | .error e => .error e
        | .ok _ =>
          match env.status_res with
          | .error e => .error e
          | .ok success =>
            let s := if success then s
                     else { s with error_message := "Failed to open Neovim" }
            match env.read_res with
            | .error e => .error e
            | .ok updated_content =>
              let s := if updated_content ≠ s.raw_input then
                         parse_json env.parse_res env.fmt_res
                           { s with raw_input := updated_content }
                       else s
              .ok { s with temp_file := some (), file_watcher_rx := some [],
                           needs_terminal_reinit := true }

/-- `JsonUtils::check_file_changes`.  `try_recv` pops one pending
notification if any; `read_res` is the `fs::read_to_string` outcome. -/
def check_file_changes (read_res : Except String String)
    (parse_res : Except String Value) (fmt_res : Value → Except String String)
    (s : JsonUtilsState) : JsonUtilsState :=
  match s.file_watcher_rx with
  | none => s
  | some queue =>
    match queue with
    | [] => s
    | _ :: rest =>
      let s := { s with file_watcher_rx := some rest }
      match s.temp_file with
      | none => s
      | some _ =>
        match read_res with
        | .ok content =>
            if content ≠ s.raw_input then
              parse_json parse_res fmt_res { s with raw_input := content }
            else s
        | .error e => { s with error_message := "Failed to read file: " ++ e }

/-! ## Visibility: structural analysis of the suppression-threshold scan

`Forest d B` says that `B` is a flat pre-order encoding of a forest whose
roots sit at depth `d`: `B` is a concatenation of blocks `n :: children`
where `n.depth = d`, `children` is a forest at depth `d + 1`, and only
container nodes have children.  `build_tree_recursive` produces exactly such
lists, and toggling `expanded` flags preserves the shape. -/

/-- Flat index `i` is a strict ancestor of flat index `j`: `i` precedes `j`
and every node in `(i, j]` lies strictly deeper than `i`, i.e. `j` is inside
`i`'s contiguous descendant block (the spec's contiguity reading of the
tree). -/
def isAncestor (tree : List JsonTreeNode) (i j : Nat) : Prop :=
  i < j ∧ ∀ k, i < k → k ≤ j → (nodeAt tree i).depth < (nodeAt tree k).depth

/-- The spec's definition of visibility: every strict ancestor of `j` has
`expanded = true`. -/
def ancestorsExpanded (tree : List JsonTreeNode) (j : Nat) : Prop :=
  ∀ i, isAncestor tree i j → (nodeAt tree i).expanded = true

/-- Pre-order forest shape of a flat node list, roots at depth `d`. -/
inductive Forest : Nat → List JsonTreeNode → Prop where
  | nil : ∀ d, Forest d []
  | cons : ∀ (d : Nat) (n : JsonTreeNode) (cs rest : List JsonTreeNode),
      n.depth = d →
      (cs ≠ [] → (n.value.is_object || n.value.is_array) = true) →
      Forest (d + 1) cs → Forest d rest →
      Forest d (n :: (cs ++ rest))

theorem nodeAt_cons_zero (n : JsonTreeNode) (l : List JsonTreeNode) :
    nodeAt (n :: l) 0 = n := rfl

theorem nodeAt_cons_succ (n : JsonTreeNode) (l : List JsonTreeNode) (x : Nat) :
    nodeAt (n :: l) (x + 1) = nodeAt l x := rfl

theorem nodeAt_append_lt {A B : List JsonTreeNode} {x : Nat} (h : x < A.length) :
    nodeAt (A ++ B) x = nodeAt A x :=
  List.getD_append _ _ _ _ h

theorem nodeAt_append_right (A B : List JsonTreeNode) (y : Nat) :
    nodeAt (A ++ B) (A.length + y) = nodeAt B y := by
  unfold nodeAt
  rw [List.getD_append_right _ _ _ _ (Nat.le_add_right _ _), Nat.add_sub_cancel_left]

theorem nodeAt_mem {l : List JsonTreeNode} {x : Nat} (h : x < l.length) :
    nodeAt l x ∈ l := by
  rw [nodeAt, List.getD_eq_getElem _ _ h]
  exact List.getElem_mem h

theorem Forest_append {d : Nat} {A : List JsonTreeNode} (hA : Forest d A) :
    ∀ {B : List JsonTreeNode}, Forest d B → Forest d (A ++ B) := by
  induction hA with
  | nil d => intro B hB; simpa using hB
  | cons d n cs rest hn hcont hcs hrest IHcs IHrest =>
      intro B hB
      have h2 := Forest.cons d n cs (rest ++ B) hn hcont hcs (IHrest hB)
      simpa using h2

theorem Forest_depth_le {d : Nat} {B : List JsonTreeNode} (h : Forest d B) :
    ∀ m ∈ B, d ≤ m.depth := by
  induction h with
  | nil d => simp
  | cons d n cs rest hn hcont hcs hrest IHcs IHrest =>
      intro m hm
      rcases List.mem_cons.mp hm with hm | hm
      · subst hm; omega
      · rcases List.mem_append.mp hm with hm | hm
        · have := IHcs m hm; omega
        · exact IHrest m hm

theorem visAux_append (A B : List JsonTreeNode) :
    ∀ (i : Nat) (s : Option Nat),
      getVisibleAux i s (A ++ B) =
        getVisibleAux i s A ++ getVisibleAux (i + A.length) (scanSkip s A) B := by
  induction A with
  | nil => intro i s; simp [getVisibleAux, scanSkip]
  | cons a A IH =>
      intro i s
      have harith : i + (a :: A).length = (i + 1) + A.length := by
        simp [List.length_cons]; omega
      cases s with
      | none =>
          simp only [List.cons_append, getVisibleAux, scanSkip, List.append_eq, IH, harith]
      | some d =>
          by_cases hd : a.depth > d
          · simp only [List.cons_append, getVisibleAux, scanSkip, List.append_eq, if_pos hd,
              IH, harith]
          · simp only [List.cons_append, getVisibleAux, scanSkip, List.append_eq, if_neg hd,
              IH, harith]

theorem scanSkip_append (A B : List JsonTreeNode) :
    ∀ s : Option Nat, scanSkip s (A ++ B) = scanSkip (scanSkip s A) B := by
  induction A with
  | nil => intro s; simp [scanSkip]
  | cons a A IH =>
      intro s
      cases s with
      | none => simp only [List.cons_append, scanSkip, List.append_eq, IH]
      | some d =>
          by_cases hd : a.depth > d
          · simp only [List.cons_append, scanSkip, List.append_eq, if_pos hd, IH]
          · simp only [List.cons_append, scanSkip, List.append_eq, if_neg hd, IH]

theorem visAux_skip_all {d : Nat} {B : List JsonTreeNode} (h : ∀ m ∈ B, d < m.depth) :
    ∀ i : Nat, getVisibleAux i (some d) B = [] := by
  induction B with
  | nil => intro i; simp [getVisibleAux]
  | cons a A IH =>
      intro i
      have ha : d < a.depth := h a (by simp)
      simp only [getVisibleAux, if_pos ha]
      exact IH (fun m hm => h m (by simp [hm])) (i + 1)

theorem scanSkip_skip_all {d : Nat} {B : List JsonTreeNode} (h : ∀ m ∈ B, d < m.depth) :
    scanSkip (some d) B = some d := by
  induction B with
  | nil => simp [scanSkip]
  | cons a A IH =>
      have ha : d < a.depth := h a (by simp)
      simp only [scanSkip, if_pos ha]
      exact IH (fun m hm => h m (by simp [hm]))

theorem visAux_clear {d e : Nat} {B : List JsonTreeNode} (hF : Forest d B) (he : d ≤ e) :
    ∀ i : Nat, getVisibleAux i (some e) B = getVisibleAux i none B := by
  cases hF with
  | nil => intro i; simp [getVisibleAux]
  | cons d n cs rest hn hcont hcs hrest =>
      intro i
      have hnd : ¬ n.depth > e := by omega
      simp only [getVisibleAux, if_neg hnd]

theorem scanSkip_clear {d e : Nat} {B : List JsonTreeNode} (hF : Forest d B) (he : d ≤ e)
    (hne : B ≠ []) : scanSkip (some e) B = scanSkip none B := by
  cases hF with
  | nil => exact absurd rfl hne
  | cons d n cs rest hn hcont hcs hrest =>
      have hnd : ¬ n.depth > e := by omega
      simp only [scanSkip, if_neg hnd]

theorem scanSkip_forest {d : Nat} {B : List JsonTreeNode} (hF : Forest d B) :
    scanSkip none B = none ∨ ∃ e, d ≤ e ∧ scanSkip none B = some e := by
  induction hF with
  | nil d => left; rfl
  | cons d n cs rest hn hcont hcs hrest IHcs IHrest =>
      have hcsd : ∀ m ∈ cs, d < m.depth := by
        intro m hm; have := Forest_depth_le hcs m hm; omega
      by_cases hns : (n.value.is_object || n.value.is_array) && !n.expanded
      · -- collapsed container: skip state becomes `some d` through `cs`
        have hnext : nextSkip n = some d := by simp [nextSkip, hns, hn]
        simp only [scanSkip, hnext, scanSkip_append]
        rw [scanSkip_skip_all hcsd]
        rcases List.eq_nil_or_concat rest with hre | _
        · subst hre; right; exact ⟨d, Nat.le_refl d, rfl⟩
        · rcases List.eq_nil_or_concat rest with hre | ⟨l, a, hre⟩
          · subst hre; right; exact ⟨d, Nat.le_refl d, rfl⟩
          · have hne : rest ≠ [] := by subst hre; simp
            rw [scanSkip_clear hrest (Nat.le_refl d) hne]
            exact IHrest
      · have hnext : nextSkip n = none := by simp only [nextSkip, if_neg]; rw [if_neg]; exact hns
        simp only [scanSkip, hnext, scanSkip_append]
        rcases List.eq_nil_or_concat rest with hre | ⟨l, a, hre⟩
        · subst hre
          simp only [scanSkip]
          rcases IHcs with h | ⟨e, he, h⟩
          · left; exact h
          · right; exact ⟨e, by omega, h⟩
        · have hne : rest ≠ [] := by subst hre; simp
          rcases IHcs with h | ⟨e, he, h⟩
          · rw [h]; exact IHrest
          · rw [h, scanSkip_clear hrest (by omega) hne]; exact IHrest

theorem ancExp_zero (B : List JsonTreeNode) : ancestorsExpanded B 0 := by
  intro i hi
  exact absurd hi.1 (Nat.not_lt_zero i)

/-- Shifting `ancestorsExpanded` into the child block: for an index inside
`cs`, the ancestors in `n :: (cs ++ rest)` are `n` itself plus the ancestors
inside `cs`. -/
theorem ancExp_shift_cs {n : JsonTreeNode} {cs rest : List JsonTreeNode} {d kb : Nat}
    (hn : n.depth = d) (hcs : ∀ m ∈ cs, d + 1 ≤ m.depth) (hkb : kb < cs.length) :
    ancestorsExpanded (n :: (cs ++ rest)) (kb + 1) ↔
      n.expanded = true ∧ ancestorsExpanded cs kb := by
  constructor
  · intro h
    constructor
    · have h0 : isAncestor (n :: (cs ++ rest)) 0 (kb + 1) := by
        refine ⟨Nat.succ_pos kb, ?_⟩
        intro k hk0 hkk
        obtain ⟨y, rfl⟩ : ∃ y, k = y + 1 := ⟨k - 1, by omega⟩
        rw [nodeAt_cons_zero, nodeAt_cons_succ, nodeAt_append_lt (by omega)]
        have := hcs _ (nodeAt_mem (l := cs) (x := y) (by omega))
        omega
      have := h 0 h0
      rwa [nodeAt_cons_zero] at this
    · intro ib hib
      obtain ⟨hib1, hib2⟩ := hib
      have hib' : isAncestor (n :: (cs ++ rest)) (ib + 1) (kb + 1) := by
        refine ⟨by omega, ?_⟩
        intro k hk0 hkk
        obtain ⟨y, rfl⟩ : ∃ y, k = y + 1 := ⟨k - 1, by omega⟩
        rw [nodeAt_cons_succ, nodeAt_cons_succ,
          nodeAt_append_lt (x := ib) (by omega), nodeAt_append_lt (x := y) (by omega)]
        exact hib2 y (by omega) (by omega)
      have := h (ib + 1) hib'
      rwa [nodeAt_cons_succ, nodeAt_append_lt (by omega)] at this
  · rintro ⟨hexp, hcsA⟩ ib hib
    obtain ⟨hib1, hib2⟩ := hib
    cases ib with
    | zero => rwa [nodeAt_cons_zero]
    | succ x =>
        have hx : x < kb := by omega
        have hxcs : x < cs.length := by omega
        rw [nodeAt_cons_succ, nodeAt_append_lt hxcs]
        refine hcsA x ⟨hx, ?_⟩
        intro y hy1 hy2
        have hycs : y < cs.length := by omega
        have := hib2 (y + 1) (by omega) (by omega)
        rwa [nodeAt_cons_succ, nodeAt_cons_succ, nodeAt_append_lt hxcs,
          nodeAt_append_lt hycs] at this

/-- Shifting `ancestorsExpanded` into the sibling block: for an index inside
`rest`, neither `n` nor any node of `cs` is an ancestor (the first root of
`rest` at depth `d` separates them), so the ancestors are exactly those
inside `rest`. -/
theorem ancExp_shift_rest {n : JsonTreeNode} {cs rest : List JsonTreeNode} {d rb : Nat}
    (hn : n.depth = d) (hcs : ∀ m ∈ cs, d + 1 ≤ m.depth)
    (hrest : Forest d rest) (hrb : rb < rest.length) :
    ancestorsExpanded (n :: (cs ++ rest)) (cs.length + rb + 1) ↔
      ancestorsExpanded rest rb := by
  have hhead : (nodeAt rest 0).depth = d := by
    cases hrest with
    | nil => simp at hrb
    | cons d m cs2 rest2 hm => exact hm
  have hfr : nodeAt (cs ++ rest) cs.length = nodeAt rest 0 := by
    simpa using nodeAt_append_right cs rest 0
  constructor
  · intro h ibr hibr
    obtain ⟨hibr1, hibr2⟩ := hibr
    have key : isAncestor (n :: (cs ++ rest)) (cs.length + ibr + 1) (cs.length + rb + 1) := by
      refine ⟨by omega, ?_⟩
      intro k hk1 hk2
      obtain ⟨y, rfl⟩ : ∃ y, k = (cs.length + y) + 1 := ⟨k - cs.length - 1, by omega⟩
      rw [nodeAt_cons_succ, nodeAt_cons_succ, nodeAt_append_right, nodeAt_append_right]
      exact hibr2 y (by omega) (by omega)
    have := h _ key
    rwa [nodeAt_cons_succ, nodeAt_append_right] at this
  · intro h ib hib
    obtain ⟨hib1, hib2⟩ := hib
    rcases Nat.lt_or_ge ib 1 with h0 | h1
    · obtain rfl : ib = 0 := by omega
      exfalso
      have := hib2 (cs.length + 0 + 1) (by omega) (by omega)
      rw [nodeAt_cons_zero, nodeAt_cons_succ, hfr] at this
      omega
    · obtain ⟨x, rfl⟩ : ∃ x, ib = x + 1 := ⟨ib - 1, by omega⟩
      rcases Nat.lt_or_ge x cs.length with hxcs | hxge
      · exfalso
        have := hib2 (cs.length + 0 + 1) (by omega) (by omega)
        rw [nodeAt_cons_succ, nodeAt_cons_succ, nodeAt_append_lt hxcs, hfr] at this
        have hm := hcs _ (nodeAt_mem hxcs)
        omega
      · obtain ⟨ibr, rfl⟩ : ∃ ibr, x = cs.length + ibr := ⟨x - cs.length, by omega⟩
        rw [nodeAt_cons_succ, nodeAt_append_right]
        refine h ibr ⟨by omega, ?_⟩
        intro y hy1 hy2
        have := hib2 ((cs.length + y) + 1) (by omega) (by omega)
        rwa [nodeAt_cons_succ, nodeAt_cons_succ, nodeAt_append_right,
          nodeAt_append_right] at this

/-- Core characterization of the suppression-threshold scan on a pre-order
forest: an index is emitted iff all of its strict ancestors are expanded. -/
theorem visAux_mem_iff {d : Nat} {B : List JsonTreeNode} (hF : Forest d B) :
    ∀ i j, (j ∈ getVisibleAux i none B ↔
      ∃ jb, jb < B.length ∧ j = i + jb ∧ ancestorsExpanded B jb) := by
  induction hF with
  | nil d => intro i j; simp [getVisibleAux]
  | cons d n cs rest hn hcont hcs hrest IHcs IHrest =>
      intro i j
      have hcsd : ∀ m ∈ cs, d + 1 ≤ m.depth := Forest_depth_le hcs
      have hcsd' : ∀ m ∈ cs, d < m.depth := fun m hm => by have := hcsd m hm; omega
      have hlen : (n :: (cs ++ rest)).length = cs.length + rest.length + 1 := by
        rw [List.length_cons, List.length_append]
      cases hns : ((n.value.is_object || n.value.is_array) && !n.expanded) with
      | true =>
        have hnexp : n.expanded = false := by
          rw [Bool.and_eq_true] at hns
          simpa using hns.2
        have hnext : nextSkip n = some d := by simp [nextSkip, hns, hn]
        have hlist : getVisibleAux i none (n :: (cs ++ rest)) =
            i :: getVisibleAux (i + 1 + cs.length) none rest := by
          simp only [getVisibleAux, hnext]
          rw [visAux_append, visAux_skip_all hcsd', scanSkip_skip_all hcsd',
            visAux_clear hrest (Nat.le_refl d)]
          simp
        rw [hlist]
        constructor
        · intro hj
          rcases List.mem_cons.mp hj with rfl | hj
          · exact ⟨0, by simp, by omega, ancExp_zero _⟩
          · obtain ⟨rb, hrb, rfl, hAnc⟩ := (IHrest _ j).mp hj
            refine ⟨cs.length + rb + 1, by rw [hlen]; omega, by omega, ?_⟩
            exact (ancExp_shift_rest hn hcsd hrest hrb).mpr hAnc
        · rintro ⟨jb, hjb, rfl, hAnc⟩
          rcases Nat.eq_zero_or_pos jb with rfl | hpos
          · simp
          · obtain ⟨xb, rfl⟩ : ∃ xb, jb = xb + 1 := ⟨jb - 1, by omega⟩
            rcases Nat.lt_or_ge xb cs.length with hxcs | hxge
            · exfalso
              have hne := ((ancExp_shift_cs hn hcsd hxcs).mp hAnc).1
              rw [hnexp] at hne
              exact Bool.false_ne_true hne
            · obtain ⟨rb, rfl⟩ : ∃ rb, xb = cs.length + rb := ⟨xb - cs.length, by omega⟩
              rw [hlen] at hjb
              have hrb : rb < rest.length := by omega
              have hAnc' := (ancExp_shift_rest hn hcsd hrest hrb).mp hAnc
              have hmem := (IHrest (i + 1 + cs.length) (i + 1 + cs.length + rb)).mpr
                ⟨rb, hrb, rfl, hAnc'⟩
              refine List.mem_cons_of_mem _ ?_
              have harith : i + (cs.length + rb + 1) = i + 1 + cs.length + rb := by omega
              rw [harith]
              exact hmem
      | false =>
        have hnext : nextSkip n = none := by simp [nextSkip, hns]
        have hlist : getVisibleAux i none (n :: (cs ++ rest)) =
            i :: (getVisibleAux (i + 1) none cs ++
              getVisibleAux (i + 1 + cs.length) none rest) := by
          simp only [getVisibleAux, hnext]
          rw [visAux_append]
          rcases scanSkip_forest hcs with hsc | ⟨e, he, hsc⟩
          · rw [hsc]
          · rw [hsc, visAux_clear hrest (by omega)]
        rw [hlist]
        constructor
        · intro hj
          rcases List.mem_cons.mp hj with rfl | hj
          · exact ⟨0, by simp, by omega, ancExp_zero _⟩
          · rcases List.mem_append.mp hj with hj | hj
            · obtain ⟨kb, hkb, rfl, hAnc⟩ := (IHcs _ j).mp hj
              refine ⟨kb + 1, by rw [hlen]; omega, by omega, ?_⟩
              refine (ancExp_shift_cs hn hcsd hkb).mpr ⟨?_, hAnc⟩
              have hcont' : (n.value.is_object || n.value.is_array) = true := by
                refine hcont ?_
                intro hcseq
                rw [hcseq] at hkb
                simp at hkb
              rw [hcont'] at hns
              simpa using hns
            · obtain ⟨rb, hrb, rfl, hAnc⟩ := (IHrest _ j).mp hj
              exact ⟨cs.length + rb + 1, by rw [hlen]; omega, by omega,
                (ancExp_shift_rest hn hcsd hrest hrb).mpr hAnc⟩
        · rintro ⟨jb, hjb, rfl, hAnc⟩
          rcases Nat.eq_zero_or_pos jb with rfl | hpos
          · simp
          · obtain ⟨xb, rfl⟩ : ∃ xb, jb = xb + 1 := ⟨jb - 1, by omega⟩
            rcases Nat.lt_or_ge xb cs.length with hxcs | hxge
            · have hAnc' := ((ancExp_shift_cs hn hcsd hxcs).mp hAnc).2
              have hmem := (IHcs (i + 1) (i + 1 + xb)).mpr ⟨xb, hxcs, rfl, hAnc'⟩
              refine List.mem_cons_of_mem _ (List.mem_append_left _ ?_)
              have harith : i + (xb + 1) = i + 1 + xb := by omega
              rw [harith]
              exact hmem
            · obtain ⟨rb, rfl⟩ : ∃ rb, xb = cs.length + rb := ⟨xb - cs.length, by omega⟩
              rw [hlen] at hjb
              have hrb : rb < rest.length := by omega
              have hAnc' := (ancExp_shift_rest hn hcsd hrest hrb).mp hAnc
              have hmem := (IHrest (i + 1 + cs.length) (i + 1 + cs.length + rb)).mpr
                ⟨rb, hrb, rfl, hAnc'⟩
              refine List.mem_cons_of_mem _ (List.mem_append_right _ ?_)
              have harith : i + (cs.length + rb + 1) = i + 1 + cs.length + rb := by omega
              rw [harith]
              exact hmem

mutual

/-- The tree builder produces a single pre-order tree block. -/
theorem Forest_build_tree_recursive (value : Value) (key : String) (depth : Nat)
    (path : String) : Forest depth (build_tree_recursive value key depth path) := by
  cases value with
  | null =>
      have h := Forest.cons depth
        { key := key, value := .null, expanded := decide (depth < 2), depth := depth,
          path := path } [] [] rfl (fun h => absurd rfl h) (Forest.nil _) (Forest.nil _)
      simpa [build_tree_recursive] using h
  | bool b =>
      have h := Forest.cons depth
        { key := key, value := .bool b, expanded := decide (depth < 2), depth := depth,
          path := path } [] [] rfl (fun h => absurd rfl h) (Forest.nil _) (Forest.nil _)
      simpa [build_tree_recursive] using h
  | num m =>
      have h := Forest.cons depth
        { key := key, value := .num m, expanded := decide (depth < 2), depth := depth,
          path := path } [] [] rfl (fun h => absurd rfl h) (Forest.nil _) (Forest.nil _)
      simpa [build_tree_recursive] using h
  | str t =>
      have h := Forest.cons depth
        { key := key, value := .str t, expanded := decide (depth < 2), depth := depth,
          path := path } [] [] rfl (fun h => absurd rfl h) (Forest.nil _) (Forest.nil _)
      simpa [build_tree_recursive] using h
  | arr elems =>
      have hch := Forest_build_tree_elems elems 0 depth path
      have h := Forest.cons depth
        { key := key, value := .arr elems, expanded := decide (depth < 2), depth := depth,
          path := path } (build_tree_elems elems 0 depth path) [] rfl
        (fun _ => by simp [Value.is_array]) hch (Forest.nil _)
      simpa [build_tree_recursive] using h
  | obj fields =>
      have hch := Forest_build_tree_fields fields depth path
      have h := Forest.cons depth
        { key := key, value := .obj fields, expanded := decide (depth < 2), depth := depth,
          path := path } (build_tree_fields fields depth path) [] rfl
        (fun _ => by simp [Value.is_object]) hch (Forest.nil _)
      simpa [build_tree_recursive] using h

/-- The object-field loop produces a forest one level deeper. -/
theorem Forest_build_tree_fields (fields : List (String × Value)) (depth : Nat)
    (path : String) : Forest (depth + 1) (build_tree_fields fields depth path) := by
  cases fields with
  | nil => exact Forest.nil _
  | cons p rest =>
      obtain ⟨k, v⟩ := p
      have h1 := Forest_build_tree_recursive v k (depth + 1)
        (if path == "root" then k else path ++ "." ++ k)
      have h2 := Forest_build_tree_fields rest depth path
      simpa [build_tree_fields] using Forest_append h1 h2

/-- The array-element loop produces a forest one level deeper. -/
theorem Forest_build_tree_elems (elems : List Value) (i : Nat) (depth : Nat)
    (path : String) : Forest (depth + 1) (build_tree_elems elems i depth path) := by
  cases elems with
  | nil => exact Forest.nil _
  | cons v rest =>
      have h1 := Forest_build_tree_recursive v ("[" ++ toString i ++ "]") (depth + 1)
        (if path == "root" then "[" ++ toString i ++ "]" else path ++ "[" ++ toString i ++ "]")
      have h2 := Forest_build_tree_elems rest (i + 1) depth path
      simpa [build_tree_elems] using Forest_append h1 h2

end

/-! ### Arbitrary reassignment of the expand flags -/

/-- Reassign the `expanded` flag of each node by its flat index, starting at
index `i`; everything else is untouched. -/
def reExpandFrom (f : Nat → Bool) : Nat → List JsonTreeNode → List JsonTreeNode
  | _, [] => []
  | i, n :: rest => { n with expanded := f i } :: reExpandFrom f (i + 1) rest

/-- An arbitrary assignment of `expanded` flags over a flat node list. -/
def reExpand (f : Nat → Bool) (tree : List JsonTreeNode) : List JsonTreeNode :=
  reExpandFrom f 0 tree

theorem reExpandFrom_length (f : Nat → Bool) :
    ∀ (l : List JsonTreeNode) (i : Nat), (reExpandFrom f i l).length = l.length := by
  intro l
  induction l with
  | nil => intro i; rfl
  | cons n rest IH => intro i; simp [reExpandFrom, IH]

theorem reExpandFrom_append (f : Nat → Bool) :
    ∀ (A B : List JsonTreeNode) (i : Nat),
      reExpandFrom f i (A ++ B) = reExpandFrom f i A ++ reExpandFrom f (i + A.length) B := by
  intro A
  induction A with
  | nil => intro B i; simp [reExpandFrom]
  | cons n rest IH =>
      intro B i
      have harith : i + (n :: rest).length = (i + 1) + rest.length := by
        rw [List.length_cons]; omega
      simp only [List.cons_append, reExpandFrom, List.append_eq, IH, harith]

/-- Reassigning expand flags preserves the pre-order forest shape. -/
theorem Forest_reExpandFrom {d : Nat} {B : List JsonTreeNode} (hF : Forest d B)
    (f : Nat → Bool) : ∀ i, Forest d (reExpandFrom f i B) := by
  induction hF with
  | nil d => intro i; exact Forest.nil _
  | cons d n cs rest hn hcont hcs hrest IHcs IHrest =>
      intro i
      have hsh : reExpandFrom f i (n :: (cs ++ rest)) =
          { n with expanded := f i } ::
            (reExpandFrom f (i + 1) cs ++
              reExpandFrom f (i + 1 + cs.length) rest) := by
        simp only [reExpandFrom, reExpandFrom_append]
      rw [hsh]
      refine Forest.cons d _ _ _ hn ?_ (IHcs (i + 1)) (IHrest (i + 1 + cs.length))
      intro hne
      refine hcont ?_
      intro hcseq
      rw [hcseq] at hne
      exact hne rfl

/-- Membership in `get_visible_nodes` on any depth-0 forest is exactly
"in range and all strict ancestors expanded". -/
theorem mem_visible_iff_forest {T : List JsonTreeNode} (hF : Forest 0 T) (j : Nat) :
    j ∈ get_visible_nodes T ↔ j < T.length ∧ ancestorsExpanded T j := by
  have h := visAux_mem_iff hF 0 j
  rw [get_visible_nodes]
  rw [h]
  constructor
  · rintro ⟨jb, hjb, rfl, hA⟩
    simpa using ⟨hjb, hA⟩
  · rintro ⟨hj, hA⟩
    exact ⟨j, hj, by omega, hA⟩

/-- Claim C1: for every flat node sequence produced by the tree builder and
every assignment of expanded flags, a flat index is in the result of
`get_visible_nodes` iff it is in range and every strict ancestor of that node
has `expanded = true`. -/
theorem c1_visible_iff_ancestors_expanded (v : Value) (f : Nat → Bool) (j : Nat) :
    j ∈ get_visible_nodes (reExpand f (build_tree_list v)) ↔
      j < (reExpand f (build_tree_list v)).length ∧
        ancestorsExpanded (reExpand f (build_tree_list v)) j :=
  mem_visible_iff_forest
    (Forest_reExpandFrom (Forest_build_tree_recursive v "" 0 "root") f 0) j

/-- Every index emitted by the scan lies in `[i, i + nodes.length)`. -/
theorem visAux_bounds (B : List JsonTreeNode) :
    ∀ (i : Nat) (s : Option Nat) (j : Nat),
      j ∈ getVisibleAux i s B → i ≤ j ∧ j < i + B.length := by
  induction B with
  | nil => intro i s j hj; simp [getVisibleAux] at hj
  | cons a A IH =>
      intro i s j hj
      have hstep : ∀ s', j ∈ i :: getVisibleAux (i + 1) s' A →
          i ≤ j ∧ j < i + (a :: A).length := by
        intro s' hj'
        rcases List.mem_cons.mp hj' with rfl | hj'
        · rw [List.length_cons]; omega
        · have := IH (i + 1) s' j hj'
          rw [List.length_cons]
          omega
      cases s with
      | none => exact hstep _ hj
      | some d =>
          by_cases hd : a.depth > d
          · rw [getVisibleAux, if_pos hd] at hj
            have := IH (i + 1) (some d) j hj
            rw [List.length_cons]
            omega
          · rw [getVisibleAux, if_neg hd] at hj
            exact hstep _ hj

/-- The scan emits strictly increasing flat indices. -/
theorem visAux_pairwise (B : List JsonTreeNode) :
    ∀ (i : Nat) (s : Option Nat), (getVisibleAux i s B).Pairwise (· < ·) := by
  induction B with
  | nil => intro i s; simp [getVisibleAux]
  | cons a A IH =>
      intro i s
      have hstep : ∀ s', (i :: getVisibleAux (i + 1) s' A).Pairwise (· < ·) := by
        intro s'
        refine List.pairwise_cons.mpr ⟨?_, IH (i + 1) s'⟩
        intro y hy
        have := (visAux_bounds A (i + 1) s' y hy).1
        omega
      cases s with
      | none => exact hstep _
      | some d =>
          by_cases hd : a.depth > d
          · rw [getVisibleAux, if_pos hd]
            exact IH (i + 1) (some d)
          · rw [getVisibleAux, if_neg hd]
            exact hstep _

theorem getD_mem_of_lt {l : List Nat} {x : Nat} (h : x < l.length) : l.getD x 0 ∈ l := by
  rw [List.getD_eq_getElem _ _ h]
  exact List.getElem_mem h

/-- In a strictly increasing list, looking up the element at position `p`
finds exactly position `p`. -/
theorem findIdx_getD_of_pairwise {l : List Nat} (hl : l.Pairwise (· < ·)) :
    ∀ p : Nat, p < l.length → l.findIdx? (fun x => x == l.getD p 0) = some p := by
  induction l with
  | nil => intro p hp; simp at hp
  | cons a l IH =>
      intro p hp
      cases p with
      | zero => simp [List.findIdx?_cons]
      | succ q =>
          have hq : q < l.length := by
            rw [List.length_cons] at hp
            omega
          have haq : a < l.getD q 0 :=
            (List.pairwise_cons.mp hl).1 _ (getD_mem_of_lt hq)
          have hne : (a == l.getD q 0) = false := by
            simp only [beq_eq_false_iff_ne, ne_eq]
            omega
          rw [List.findIdx?_cons]
          have hIH := IH (List.pairwise_cons.mp hl).2 q hq
          simp only [List.getD_cons_succ, hne, Bool.false_eq_true, if_false,
            List.findIdx?_succ, hIH, Option.map_some']

/-- Claim C2: when the selected node is visible (at visible position `p`),
`move_selection_up` at the first visible node and `move_selection_down` at
the last visible node leave the whole state unchanged; otherwise the move
reassigns `selected_node` to the flat index of exactly the adjacent visible
node, with no wraparound. -/
theorem c2_navigation_bounded (s : JsonUtilsState) (p : Nat)
    (hp : p < (get_visible_nodes s.json_tree).length)
    (hsel : (get_visible_nodes s.json_tree).getD p 0 = s.selected_node) :
    (p = 0 → move_selection_up s = s) ∧
    (0 < p → move_selection_up s =
      { s with selected_node := (get_visible_nodes s.json_tree).getD (p - 1) 0 }) ∧
    (p = (get_visible_nodes s.json_tree).length - 1 → move_selection_down s = s) ∧
    (p + 1 < (get_visible_nodes s.json_tree).length → move_selection_down s =
      { s with selected_node := (get_visible_nodes s.json_tree).getD (p + 1) 0 }) := by
  have hpair : (get_visible_nodes s.json_tree).Pairwise (· < ·) := visAux_pairwise _ 0 none
  have hfind : (get_visible_nodes s.json_tree).findIdx?
      (fun idx => idx == s.selected_node) = some p := by
    rw [← hsel]
    exact findIdx_getD_of_pairwise hpair p hp
  have hne : (get_visible_nodes s.json_tree).isEmpty = false := by
    cases hv : get_visible_nodes s.json_tree with
    | nil => rw [hv] at hp; simp at hp
    | cons a t => rfl
  refine ⟨?_, ?_, ?_, ?_⟩
  · rintro rfl
    simp only [move_selection_up, hne, Bool.false_eq_true, if_false, hfind,
      Option.getD_some, gt_iff_lt, Nat.lt_irrefl, if_false]
  · intro hpos
    have hlt : p - 1 < (get_visible_nodes s.json_tree).length := by omega
    have h1 : (get_visible_nodes s.json_tree)[p - 1]? =
        some ((get_visible_nodes s.json_tree).getD (p - 1) 0) := by
      rw [List.getElem?_eq_getElem hlt, List.getD_eq_getElem _ _ hlt]
    simp only [move_selection_up, hne, Bool.false_eq_true, if_false, hfind,
      Option.getD_some, gt_iff_lt, hpos, if_true, h1]
  · intro hlast
    have hnlt : ¬ (p < (get_visible_nodes s.json_tree).length - 1) := by omega
    simp only [move_selection_down, hne, Bool.false_eq_true, if_false, hfind,
      Option.getD_some, hnlt, if_false]
  · intro hlt'
    have hlt : p < (get_visible_nodes s.json_tree).length - 1 := by omega
    have h1 : (get_visible_nodes s.json_tree)[p + 1]? =
        some ((get_visible_nodes s.json_tree).getD (p + 1) 0) := by
      rw [List.getElem?_eq_getElem hlt', List.getD_eq_getElem _ _ hlt']
    simp only [move_selection_down, hne, Bool.false_eq_true, if_false, hfind,
      Option.getD_some, hlt, if_true, h1]

theorem nodeAt_set_ne {l : List JsonTreeNode} {i j : Nat} (m : JsonTreeNode) (h : i ≠ j) :
    nodeAt (l.set i m) j = nodeAt l j := by
  unfold nodeAt
  rw [List.getD_eq_getElem?_getD, List.getD_eq_getElem?_getD, List.getElem?_set_ne h]

theorem nodeAt_set_eq {l : List JsonTreeNode} {i : Nat} (m : JsonTreeNode) (h : i < l.length) :
    nodeAt (l.set i m) i = m := by
  unfold nodeAt
  rw [List.getD_eq_getElem?_getD, List.getElem?_set_self h]
  rfl

/-- The selected node with its `expanded` flag flipped, every other attribute
kept. -/
def flippedNode (s : JsonUtilsState) : JsonTreeNode :=
  { nodeAt s.json_tree s.selected_node with
    expanded := !(nodeAt s.json_tree s.selected_node).expanded }

/-- Claim C9: with the selection in range, `toggle_node` flips the `expanded`
flag of the selected node when it is an object or array, is a no-op on a
scalar, and never changes the selection index, any other node, or the
remaining fields of the selected node. -/
theorem c9_toggle_node (s : JsonUtilsState) (h : s.selected_node < s.json_tree.length) :
    (((nodeAt s.json_tree s.selected_node).value.is_object ||
        (nodeAt s.json_tree s.selected_node).value.is_array) = true →
      toggle_node s =
        { s with json_tree := s.json_tree.set s.selected_node (flippedNode s) }) ∧
    (((nodeAt s.json_tree s.selected_node).value.is_object ||
        (nodeAt s.json_tree s.selected_node).value.is_array) = false →
      toggle_node s = s) ∧
    (toggle_node s).selected_node = s.selected_node ∧
    (∀ j, j ≠ s.selected_node →
      nodeAt (toggle_node s).json_tree j = nodeAt s.json_tree j) ∧
    (nodeAt (toggle_node s).json_tree s.selected_node).key =
      (nodeAt s.json_tree s.selected_node).key ∧
    (nodeAt (toggle_node s).json_tree s.selected_node).value =
      (nodeAt s.json_tree s.selected_node).value ∧
    (nodeAt (toggle_node s).json_tree s.selected_node).depth =
      (nodeAt s.json_tree s.selected_node).depth ∧
    (nodeAt (toggle_node s).json_tree s.selected_node).path =
      (nodeAt s.json_tree s.selected_node).path := by
  cases hc : ((nodeAt s.json_tree s.selected_node).value.is_object ||
      (nodeAt s.json_tree s.selected_node).value.is_array) with
  | true =>
      have htog : toggle_node s =
          { s with json_tree := s.json_tree.set s.selected_node (flippedNode s) } := by
        simp [toggle_node, flippedNode, h, hc]
      have hsetsel : nodeAt (toggle_node s).json_tree s.selected_node = flippedNode s := by
        rw [htog]
        exact nodeAt_set_eq _ h
      refine ⟨fun _ => htog, fun hcc => by simp [hc] at hcc, ?_, ?_, ?_, ?_, ?_, ?_⟩
      · rw [htog]
      · intro j hj
        rw [htog]
        exact nodeAt_set_ne _ (fun e => hj e.symm)
      · rw [hsetsel]; rfl
      · rw [hsetsel]; rfl
      · rw [hsetsel]; rfl
      · rw [hsetsel]; rfl
  | false =>
      have htog : toggle_node s = s := by
        simp [toggle_node, h, hc]
      exact ⟨fun hcc => by simp [hc] at hcc, fun _ => htog, by rw [htog],
        fun j _ => by rw [htog], by rw [htog], by rw [htog], by rw [htog], by rw [htog]⟩

/-- Concrete state for the Claim C9 witness: selection on the (container)
root of the tree built from the object with one field. -/
def c9State : JsonUtilsState :=
  { JsonUtils.new with json_tree := build_tree_list (.obj [("a", .num (Number.ofNat 1))]),
                       selected_node := 0 }

theorem c9_toggle_node_witness :
    c9State.selected_node < c9State.json_tree.length ∧
    ((((nodeAt c9State.json_tree c9State.selected_node).value.is_object ||
        (nodeAt c9State.json_tree c9State.selected_node).value.is_array) = true →
      toggle_node c9State =
        { c9State with json_tree :=
            c9State.json_tree.set c9State.selected_node (flippedNode c9State) }) ∧
    (((nodeAt c9State.json_tree c9State.selected_node).value.is_object ||
        (nodeAt c9State.json_tree c9State.selected_node).value.is_array) = false →
      toggle_node c9State = c9State) ∧
    (toggle_node c9State).selected_node = c9State.selected_node ∧
    (∀ j, j ≠ c9State.selected_node →
      nodeAt (toggle_node c9State).json_tree j = nodeAt c9State.json_tree j) ∧
    (nodeAt (toggle_node c9State).json_tree c9State.selected_node).key =
      (nodeAt c9State.json_tree c9State.selected_node).key ∧
    (nodeAt (toggle_node c9State).json_tree c9State.selected_node).value =
      (nodeAt c9State.json_tree c9State.selected_node).value ∧
    (nodeAt (toggle_node c9State).json_tree c9State.selected_node).depth =
      (nodeAt c9State.json_tree c9State.selected_node).depth ∧
    (nodeAt (toggle_node c9State).json_tree c9State.selected_node).path =
      (nodeAt c9State.json_tree c9State.selected_node).path) :=
  ⟨by decide, c9_toggle_node c9State (by decide)⟩

/-- Concrete state for the Claim C2 witness: root selected in a two-node
tree, both nodes visible. -/
def c2State : JsonUtilsState :=
  { JsonUtils.new with json_tree := build_tree_list (.obj [("a", .num (Number.ofNat 1))]),
                       selected_node := 0 }

theorem c2_navigation_bounded_witness :
    (0 < (get_visible_nodes c2State.json_tree).length ∧
      (get_visible_nodes c2State.json_tree).getD 0 0 = c2State.selected_node) ∧
    ((0 = 0 → move_selection_up c2State = c2State) ∧
     (0 < 0 → move_selection_up c2State =
       { c2State with selected_node := (get_visible_nodes c2State.json_tree).getD (0 - 1) 0 }) ∧
     (0 = (get_visible_nodes c2State.json_tree).length - 1 →
       move_selection_down c2State = c2State) ∧
     (0 + 1 < (get_visible_nodes c2State.json_tree).length →
       move_selection_down c2State =
         { c2State with selected_node := (get_visible_nodes c2State.json_tree).getD (0 + 1) 0 })) :=
  ⟨⟨by decide, by decide⟩, c2_navigation_bounded c2State 0 (by decide) (by decide)⟩

theorem move_selection_up_tree_eq (s : JsonUtilsState) :
    (move_selection_up s).json_tree = s.json_tree := by
  simp only [move_selection_up]
  split
  · rfl
  · split
    · split
      · rfl
      · rfl
    · rfl

theorem move_selection_down_tree_eq (s : JsonUtilsState) :
    (move_selection_down s).json_tree = s.json_tree := by
  simp only [move_selection_down]
  split
  · rfl
  · split
    · split
      · rfl
      · rfl
    · rfl

/-- Claim C10 (amended): with the selection index out of range (which
subsumes the empty tree, where the length is 0), no operation indexes out of
bounds and the tree is never changed; `toggle_node` and `move_selection_up`
are no-ops, and `move_selection_down` is a no-op when at most one node is
visible but otherwise treats the unfound selection as visible position 0 and
moves the selection to the second visible node's flat index. -/
theorem c10_out_of_range (s : JsonUtilsState)
    (h : s.json_tree.length ≤ s.selected_node) :
    toggle_node s = s ∧
    move_selection_up s = s ∧
    (move_selection_down s).json_tree = s.json_tree ∧
    ((get_visible_nodes s.json_tree).length ≤ 1 → move_selection_down s = s) ∧
    (1 < (get_visible_nodes s.json_tree).length →
      move_selection_down s =
        { s with selected_node := (get_visible_nodes s.json_tree).getD 1 0 }) := by
  have hnlt : ¬ s.selected_node < s.json_tree.length := by omega
  have hfind : (get_visible_nodes s.json_tree).findIdx?
      (fun idx => idx == s.selected_node) = none := by
    rw [List.findIdx?_eq_none_iff]
    intro j hj
    have hb := (visAux_bounds _ 0 none j hj).2
    simp only [beq_eq_false_iff_ne, ne_eq]
    omega
  refine ⟨?_, ?_, move_selection_down_tree_eq s, ?_, ?_⟩
  · simp [toggle_node, hnlt]
  · by_cases hemp : (get_visible_nodes s.json_tree).isEmpty
    · simp [move_selection_up, hemp]
    · simp [move_selection_up, hemp, hfind]
  · intro hle
    by_cases hemp : (get_visible_nodes s.json_tree).isEmpty
    · simp [move_selection_down, hemp]
    · have hnc : ¬ (0 < (get_visible_nodes s.json_tree).length - 1) := by omega
      simp [move_selection_down, hemp, hfind, hnc]
  · intro hgt
    have hemp : (get_visible_nodes s.json_tree).isEmpty = false := by
      cases hv : get_visible_nodes s.json_tree with
      | nil => rw [hv] at hgt; simp at hgt
      | cons a t => rfl
    have hc : 0 < (get_visible_nodes s.json_tree).length - 1 := by omega
    have h1 : (get_visible_nodes s.json_tree)[(0 : Nat) + 1]? =
        some ((get_visible_nodes s.json_tree).getD 1 0) := by
      have hlt : (0 : Nat) + 1 < (get_visible_nodes s.json_tree).length := by omega
      rw [List.getElem?_eq_getElem hlt, List.getD_eq_getElem _ _ hlt]
    simp only [move_selection_down, hemp, Bool.false_eq_true, if_false, hfind,
      Option.getD_none, hc, if_true, h1]

/-- Concrete state falsifying Claim C10 as stated: two visible nodes and a
stale selection index 5 (not less than the tree length 2). -/
def c10State : JsonUtilsState :=
  { JsonUtils.new with json_tree := build_tree_list (.obj [("a", .num (Number.ofNat 1))]),
                       selected_node := 5 }

/-- Claim C10 counterexample: `move_selection_down` does not leave the
selection index unchanged in an out-of-range-selection state (it moves it to
the second visible node). -/
theorem c10_counterexample :
    (move_selection_down c10State).selected_node ≠ c10State.selected_node := by
  decide

theorem c10_out_of_range_witness :
    c10State.json_tree.length ≤ c10State.selected_node ∧
    (toggle_node c10State = c10State ∧
     move_selection_up c10State = c10State ∧
     (move_selection_down c10State).json_tree = c10State.json_tree ∧
     ((get_visible_nodes c10State.json_tree).length ≤ 1 →
       move_selection_down c10State = c10State) ∧
     (1 < (get_visible_nodes c10State.json_tree).length →
       move_selection_down c10State =
         { c10State with selected_node := (get_visible_nodes c10State.json_tree).getD 1 0 })) :=
  ⟨by decide, c10_out_of_range c10State (by decide)⟩

/-! ## Pre-order and contiguity of the builder output (Claim C6) -/

mutual

/-- Spec-side pre-order traversal of a `Value` tree (parent before all
descendants, object fields in order, array elements by ascending index). -/
def preorderVals : Value → List Value
  | .null => [.null]
  | .bool b => [.bool b]
  | .num n => [.num n]
  | .str t => [.str t]
  | .arr elems => .arr elems :: preorderElems elems
  | .obj fields => .obj fields :: preorderFields fields

def preorderFields : List (String × Value) → List Value
  | [] => []
  | (_, v) :: rest => preorderVals v ++ preorderFields rest

def preorderElems : List Value → List Value
  | [] => []
  | v :: rest => preorderVals v ++ preorderElems rest

end

mutual

/-- The values carried by the flat builder output are exactly the pre-order
traversal of the value tree. -/
theorem build_tree_recursive_map_value (v : Value) (key : String) (depth : Nat)
    (path : String) :
    (build_tree_recursive v key depth path).map JsonTreeNode.value = preorderVals v := by
  cases v with
  | null => rfl
  | bool b => rfl
  | num m => rfl
  | str t => rfl
  | arr elems =>
      show Value.arr elems :: (build_tree_elems elems 0 depth path).map JsonTreeNode.value =
        Value.arr elems :: preorderElems elems
      rw [build_tree_elems_map_value]
  | obj fields =>
      show Value.obj fields :: (build_tree_fields fields depth path).map JsonTreeNode.value =
        Value.obj fields :: preorderFields fields
      rw [build_tree_fields_map_value]

theorem build_tree_fields_map_value (fields : List (String × Value)) (depth : Nat)
    (path : String) :
    (build_tree_fields fields depth path).map JsonTreeNode.value = preorderFields fields := by
  cases fields with
  | nil => rfl
  | cons p rest =>
      obtain ⟨k, v⟩ := p
      show ((build_tree_recursive v k (depth + 1) _) ++
          build_tree_fields rest depth path).map JsonTreeNode.value =
        preorderVals v ++ preorderFields rest
      rw [List.map_append, build_tree_recursive_map_value,
        build_tree_fields_map_value]

theorem build_tree_elems_map_value (elems : List Value) (i : Nat) (depth : Nat)
    (path : String) :
    (build_tree_elems elems i depth path).map JsonTreeNode.value = preorderElems elems := by
  cases elems with
  | nil => rfl
  | cons v rest =>
      show ((build_tree_recursive v _ (depth + 1) _) ++
          build_tree_elems rest (i + 1) depth path).map JsonTreeNode.value =
        preorderVals v ++ preorderElems rest
      rw [List.map_append, build_tree_recursive_map_value,
        build_tree_elems_map_value]

end

theorem nodeAt_drop (T : List JsonTreeNode) (i x : Nat) :
    nodeAt (T.drop i) x = nodeAt T (i + x) := by
  unfold nodeAt
  rw [List.getD_eq_getElem?_getD, List.getD_eq_getElem?_getD, List.getElem?_drop]

theorem nodeAt_append_len (A B : List JsonTreeNode) :
    nodeAt (A ++ B) A.length = nodeAt B 0 := by
  simpa using nodeAt_append_right A B 0

theorem drop_append_right_nodes (A R : List JsonTreeNode) (j : Nat) :
    (A ++ R).drop (A.length + j) = R.drop j := by
  simp [List.drop_append]

/-- The builder output always starts with the node for its own arguments. -/
theorem build_tree_recursive_cons (v : Value) (key : String) (depth : Nat) (path : String) :
    ∃ C, build_tree_recursive v key depth path =
      { key := key, value := v, expanded := decide (depth < 2), depth := depth,
        path := path } :: C := by
  cases v <;> exact ⟨_, rfl⟩

/-- Every node after the head of a builder block lies strictly deeper than
the block's root. -/
theorem builder_tail_depth (v : Value) (key : String) (depth : Nat) (path : String) :
    ∀ j, j + 1 < (build_tree_recursive v key depth path).length →
      depth + 1 ≤ (nodeAt (build_tree_recursive v key depth path) (j + 1)).depth := by
  intro j hj
  cases v with
  | null =>
      have h1 : (build_tree_recursive Value.null key depth path).length = 1 := rfl
      omega
  | bool b =>
      have h1 : (build_tree_recursive (Value.bool b) key depth path).length = 1 := rfl
      omega
  | num m =>
      have h1 : (build_tree_recursive (Value.num m) key depth path).length = 1 := rfl
      omega
  | str t =>
      have h1 : (build_tree_recursive (Value.str t) key depth path).length = 1 := rfl
      omega
  | arr elems =>
      have h1 : (build_tree_recursive (Value.arr elems) key depth path).length =
          (build_tree_elems elems 0 depth path).length + 1 := rfl
      have hj' : j < (build_tree_elems elems 0 depth path).length := by omega
      exact Forest_depth_le (Forest_build_tree_elems elems 0 depth path) _ (nodeAt_mem hj')
  | obj fields =>
      have h1 : (build_tree_recursive (Value.obj fields) key depth path).length =
          (build_tree_fields fields depth path).length + 1 := rfl
      have hj' : j < (build_tree_fields fields depth path).length := by omega
      exact Forest_depth_le (Forest_build_tree_fields fields depth path) _ (nodeAt_mem hj')

/-- The head of a nonempty field block sits exactly one level deeper. -/
theorem build_tree_fields_head_depth (fields : List (String × Value)) (depth : Nat)
    (path : String) :
    ∀ m0, (build_tree_fields fields depth path).head? = some m0 → m0.depth = depth + 1 := by
  cases fields with
  | nil => intro m0 h; simp [build_tree_fields] at h
  | cons p rest =>
      obtain ⟨k, v⟩ := p
      intro m0 h
      obtain ⟨C, hC⟩ := build_tree_recursive_cons v k (depth + 1)
        (if path == "root" then k else path ++ "." ++ k)
      simp only [build_tree_fields] at h
      rw [hC] at h
      simp only [List.cons_append, List.head?_cons, Option.some.injEq] at h
      rw [← h]

/-- The head of a nonempty element block sits exactly one level deeper. -/
theorem build_tree_elems_head_depth (elems : List Value) (i : Nat) (depth : Nat)
    (path : String) :
    ∀ m0, (build_tree_elems elems i depth path).head? = some m0 → m0.depth = depth + 1 := by
  cases elems with
  | nil => intro m0 h; simp [build_tree_elems] at h
  | cons v rest =>
      intro m0 h
      obtain ⟨C, hC⟩ := build_tree_recursive_cons v ("[" ++ toString i ++ "]") (depth + 1)
        (if path == "root" then "[" ++ toString i ++ "]" else path ++ "[" ++ toString i ++ "]")
      simp only [build_tree_elems] at h
      rw [hC] at h
      simp only [List.cons_append, List.head?_cons, Option.some.injEq] at h
      rw [← h]

/-- `blockDecomp B i`: dropping to flat index `i` of `B` yields exactly the
builder block of node `i`'s own attributes, followed by a suffix whose first
node (if any) is at most as deep as node `i` — the contiguity invariant. -/
def blockDecomp (B : List JsonTreeNode) (i : Nat) : Prop :=
  ∃ suf, B.drop i =
      build_tree_recursive (nodeAt B i).value (nodeAt B i).key (nodeAt B i).depth
        (nodeAt B i).path ++ suf ∧
    ∀ m0, suf.head? = some m0 → m0.depth ≤ (nodeAt B i).depth

mutual

/-- Every position of a builder block roots its own builder sub-block. -/
theorem blockDecomp_build_tree_recursive (v : Value) (key : String) (depth : Nat)
    (path : String) :
    ∀ i, i < (build_tree_recursive v key depth path).length →
      blockDecomp (build_tree_recursive v key depth path) i := by
  intro i hi
  cases i with
  | zero =>
      refine ⟨[], ?_, fun m0 hm0 => by simp at hm0⟩
      rw [List.drop_zero, List.append_nil]
      cases v <;> rfl
  | succ j =>
      cases v with
      | null =>
          have h1 : (build_tree_recursive Value.null key depth path).length = 1 := rfl
          omega
      | bool b =>
          have h1 : (build_tree_recursive (Value.bool b) key depth path).length = 1 := rfl
          omega
      | num m =>
          have h1 : (build_tree_recursive (Value.num m) key depth path).length = 1 := rfl
          omega
      | str t =>
          have h1 : (build_tree_recursive (Value.str t) key depth path).length = 1 := rfl
          omega
      | arr elems =>
          have h1 : (build_tree_recursive (Value.arr elems) key depth path).length =
              (build_tree_elems elems 0 depth path).length + 1 := rfl
          exact blockDecomp_build_tree_elems elems 0 depth path j (by omega)
      | obj fields =>
          have h1 : (build_tree_recursive (Value.obj fields) key depth path).length =
              (build_tree_fields fields depth path).length + 1 := rfl
          exact blockDecomp_build_tree_fields fields depth path j (by omega)

theorem blockDecomp_build_tree_fields (fields : List (String × Value)) (depth : Nat)
    (path : String) :
    ∀ i, i < (build_tree_fields fields depth path).length →
      blockDecomp (build_tree_fields fields depth path) i := by
  intro i hi
  cases fields with
  | nil => simp [build_tree_fields] at hi
  | cons p rest =>
      obtain ⟨k, v⟩ := p
      have hshape : build_tree_fields ((k, v) :: rest) depth path =
          build_tree_recursive v k (depth + 1)
            (if path == "root" then k else path ++ "." ++ k) ++
          build_tree_fields rest depth path := rfl
      rw [hshape] at hi ⊢
      rcases Nat.lt_or_ge i (build_tree_recursive v k (depth + 1)
          (if path == "root" then k else path ++ "." ++ k)).length with hiA | hiA
      · obtain ⟨suf, hdrop, hhead⟩ :=
          blockDecomp_build_tree_recursive v k (depth + 1)
            (if path == "root" then k else path ++ "." ++ k) i hiA
        refine ⟨suf ++ build_tree_fields rest depth path, ?_, ?_⟩
        · rw [List.drop_append_of_le_length (Nat.le_of_lt hiA), nodeAt_append_lt hiA,
            hdrop, List.append_assoc]
        · intro m0 hm0
          rw [nodeAt_append_lt hiA]
          cases hsuf : suf with
          | nil =>
              rw [hsuf] at hm0
              simp only [List.nil_append] at hm0
              have hd := build_tree_fields_head_depth rest depth path m0 hm0
              have hA := Forest_depth_le
                (Forest_build_tree_recursive v k (depth + 1)
                  (if path == "root" then k else path ++ "." ++ k)) _ (nodeAt_mem hiA)
              omega
          | cons a t =>
              rw [hsuf] at hm0
              simp only [List.cons_append, List.head?_cons, Option.some.injEq] at hm0
              rw [← hm0]
              exact hhead a (by rw [hsuf]; rfl)
      · obtain ⟨j, rfl⟩ := Nat.exists_eq_add_of_le hiA
        rw [List.length_append] at hi
        have hj : j < (build_tree_fields rest depth path).length := by omega
        obtain ⟨suf, hdrop, hhead⟩ := blockDecomp_build_tree_fields rest depth path j hj
        refine ⟨suf, ?_, ?_⟩
        · rw [drop_append_right_nodes, nodeAt_append_right]
          exact hdrop
        · rw [nodeAt_append_right]
          exact hhead

theorem blockDecomp_build_tree_elems (elems : List Value) (ia : Nat) (depth : Nat)
    (path : String) :
    ∀ i, i < (build_tree_elems elems ia depth path).length →
      blockDecomp (build_tree_elems elems ia depth path) i := by
  intro i hi
  cases elems with
  | nil => simp [build_tree_elems] at hi
  | cons v rest =>
      have hshape : build_tree_elems (v :: rest) ia depth path =
          build_tree_recursive v ("[" ++ toString ia ++ "]") (depth + 1)
            (if path == "root" then "[" ++ toString ia ++ "]"
             else path ++ "[" ++ toString ia ++ "]") ++
          build_tree_elems rest (ia + 1) depth path := rfl
      rw [hshape] at hi ⊢
      rcases Nat.lt_or_ge i (build_tree_recursive v ("[" ++ toString ia ++ "]") (depth + 1)
          (if path == "root" then "[" ++ toString ia ++ "]"
           else path ++ "[" ++ toString ia ++ "]")).length with hiA | hiA
      · obtain ⟨suf, hdrop, hhead⟩ :=
          blockDecomp_build_tree_recursive v ("[" ++ toString ia ++ "]") (depth + 1)
            (if path == "root" then "[" ++ toString ia ++ "]"
             else path ++ "[" ++ toString ia ++ "]") i hiA
        refine ⟨suf ++ build_tree_elems rest (ia + 1) depth path, ?_, ?_⟩
        · rw [List.drop_append_of_le_length (Nat.le_of_lt hiA), nodeAt_append_lt hiA,
            hdrop, List.append_assoc]
        · intro m0 hm0
          rw [nodeAt_append_lt hiA]
          cases hsuf : suf with
          | nil =>
              rw [hsuf] at hm0
              simp only [List.nil_append] at hm0
              have hd := build_tree_elems_head_depth rest (ia + 1) depth path m0 hm0
              have hA := Forest_depth_le
                (Forest_build_tree_recursive v ("[" ++ toString ia ++ "]") (depth + 1)
                  (if path == "root" then "[" ++ toString ia ++ "]"
                   else path ++ "[" ++ toString ia ++ "]")) _ (nodeAt_mem hiA)
              omega
          | cons a t =>
              rw [hsuf] at hm0
              simp only [List.cons_append, List.head?_cons, Option.some.injEq] at hm0
              rw [← hm0]
              exact hhead a (by rw [hsuf]; rfl)
      · obtain ⟨j, rfl⟩ := Nat.exists_eq_add_of_le hiA
        rw [List.length_append] at hi
        have hj : j < (build_tree_elems rest (ia + 1) depth path).length := by omega
        obtain ⟨suf, hdrop, hhead⟩ := blockDecomp_build_tree_elems rest (ia + 1) depth path j hj
        refine ⟨suf, ?_, ?_⟩
        · rw [drop_append_right_nodes, nodeAt_append_right]
          exact hdrop
        · rw [nodeAt_append_right]
          exact hhead

end

/-- The pre-order block rooted at node `i` of `tree`: the builder applied to
that node's own attributes (its descendants are the block's tail). -/
def subtreeBlock (tree : List JsonTreeNode) (i : Nat) : List JsonTreeNode :=
  build_tree_recursive (nodeAt tree i).value (nodeAt tree i).key (nodeAt tree i).depth
    (nodeAt tree i).path

/-- Claim C6: the flat sequence produced by `build_tree` is exactly the
pre-order traversal of the value tree, and for every node at flat index `i`
with depth `d`, its descendants (the rest of its own pre-order block) occupy
the contiguous indices immediately following `i`, all at depth `> d`, and
the first node after the block (if any) has depth `≤ d`. -/
theorem c6_preorder_contiguity (v : Value) (i : Nat)
    (h : i < (build_tree_list v).length) :
    (build_tree_list v).map JsonTreeNode.value = preorderVals v ∧
    1 ≤ (subtreeBlock (build_tree_list v) i).length ∧
    ((build_tree_list v).drop i).take (subtreeBlock (build_tree_list v) i).length =
      subtreeBlock (build_tree_list v) i ∧
    (∀ k, i < k → k < i + (subtreeBlock (build_tree_list v) i).length →
      (nodeAt (build_tree_list v) i).depth < (nodeAt (build_tree_list v) k).depth) ∧
    i + (subtreeBlock (build_tree_list v) i).length ≤ (build_tree_list v).length ∧
    (i + (subtreeBlock (build_tree_list v) i).length < (build_tree_list v).length →
      (nodeAt (build_tree_list v) (i + (subtreeBlock (build_tree_list v) i).length)).depth ≤
        (nodeAt (build_tree_list v) i).depth) := by
  obtain ⟨suf, hdrop, hhead⟩ := blockDecomp_build_tree_recursive v "" 0 "root" i h
  have hdrop' : (build_tree_list v).drop i = subtreeBlock (build_tree_list v) i ++ suf :=
    hdrop
  have hlen1 : 1 ≤ (subtreeBlock (build_tree_list v) i).length := by
    obtain ⟨C, hC⟩ := build_tree_recursive_cons (nodeAt (build_tree_list v) i).value
      (nodeAt (build_tree_list v) i).key (nodeAt (build_tree_list v) i).depth
      (nodeAt (build_tree_list v) i).path
    rw [subtreeBlock, hC, List.length_cons]
    omega
  have hsum : (build_tree_list v).length - i =
      (subtreeBlock (build_tree_list v) i).length + suf.length := by
    have := congrArg List.length hdrop'
    rwa [List.length_drop, List.length_append] at this
  refine ⟨build_tree_recursive_map_value v "" 0 "root", hlen1, ?_, ?_, by omega, ?_⟩
  · rw [hdrop', List.take_left]
  · intro k hk1 hk2
    obtain ⟨x, rfl⟩ : ∃ x, k = i + (x + 1) := ⟨k - i - 1, by omega⟩
    have hx : x + 1 < (subtreeBlock (build_tree_list v) i).length := by omega
    have hk : nodeAt (build_tree_list v) (i + (x + 1)) =
        nodeAt (subtreeBlock (build_tree_list v) i) (x + 1) := by
      rw [← nodeAt_drop, hdrop', nodeAt_append_lt hx]
    rw [hk]
    have h2 : (nodeAt (build_tree_list v) i).depth + 1 ≤
        (nodeAt (subtreeBlock (build_tree_list v) i) (x + 1)).depth :=
      builder_tail_depth (nodeAt (build_tree_list v) i).value
        (nodeAt (build_tree_list v) i).key (nodeAt (build_tree_list v) i).depth
        (nodeAt (build_tree_list v) i).path x hx
    omega
  · intro hlt
    have hsufne : 0 < suf.length := by omega
    obtain ⟨m0, t, rfl⟩ : ∃ m0 t, suf = m0 :: t := by
      cases suf with
      | nil => simp at hsufne
      | cons a t => exact ⟨a, t, rfl⟩
    have hb : nodeAt (build_tree_list v) (i + (subtreeBlock (build_tree_list v) i).length) =
        m0 := by
      rw [← nodeAt_drop, hdrop', nodeAt_append_len]
      rfl
    rw [hb]
    exact hhead m0 rfl

/-- Concrete value for the Claim C6 witness. -/
def c6Val : Value := .obj [("a", .num (Number.ofNat 1))]

theorem c6_preorder_contiguity_witness :
    1 < (build_tree_list c6Val).length ∧
    ((build_tree_list c6Val).map JsonTreeNode.value = preorderVals c6Val ∧
     1 ≤ (subtreeBlock (build_tree_list c6Val) 1).length ∧
     ((build_tree_list c6Val).drop 1).take (subtreeBlock (build_tree_list c6Val) 1).length =
       subtreeBlock (build_tree_list c6Val) 1 ∧
     (∀ k, 1 < k → k < 1 + (subtreeBlock (build_tree_list c6Val) 1).length →
       (nodeAt (build_tree_list c6Val) 1).depth < (nodeAt (build_tree_list c6Val) k).depth) ∧
     1 + (subtreeBlock (build_tree_list c6Val) 1).length ≤ (build_tree_list c6Val).length ∧
     (1 + (subtreeBlock (build_tree_list c6Val) 1).length < (build_tree_list c6Val).length →
       (nodeAt (build_tree_list c6Val)
           (1 + (subtreeBlock (build_tree_list c6Val) 1).length)).depth ≤
         (nodeAt (build_tree_list c6Val) 1).depth)) :=
  ⟨by decide, c6_preorder_contiguity c6Val 1 (by decide)⟩

/-! ## Parse/format pipeline failure handling (Claim C3) -/

theorem append_ne_empty_left (a b : String) (h : a.data ≠ []) : a ++ b ≠ "" := by
  intro he
  have hd : a.data ++ b.data = [] := congrArg String.data he
  rcases List.append_eq_nil.mp hd with h1
  exact h h1.1

theorem parse_json_raw_input (pr : Except String Value)
    (fr : Value → Except String String) (s : JsonUtilsState) :
    (parse_json pr fr s).raw_input = s.raw_input := by
  cases pr with
  | error e => rfl
  | ok v =>
      cases hfr : fr v with
      | ok f => simp [parse_json, build_tree, hfr]
      | error e => simp [parse_json, hfr]

/-- Claim C3 (amended): on a syntax-parse failure `parse_json` invalidates
the state, clears the pretty text and the tree, sets a non-empty diagnostic
and discards the Value; on a pretty-format failure it invalidates the state,
sets the diagnostic and discards the Value, but leaves `formatted_json` and
`json_tree` at their previous contents (they are not cleared). -/
theorem c3_parse_failure (s : JsonUtilsState) (parse_res : Except String Value)
    (fmt_res : Value → Except String String) :
    (∀ e, parse_res = .error e →
      (parse_json parse_res fmt_res s).is_valid = false ∧
      (parse_json parse_res fmt_res s).formatted_json = "" ∧
      (parse_json parse_res fmt_res s).json_tree = [] ∧
      (parse_json parse_res fmt_res s).error_message = "Invalid JSON: " ++ e ∧
      (parse_json parse_res fmt_res s).error_message ≠ "" ∧
      (parse_json parse_res fmt_res s).parsed_value = none) ∧
    (∀ v e, parse_res = .ok v → fmt_res v = .error e →
      (parse_json parse_res fmt_res s).is_valid = false ∧
      (parse_json parse_res fmt_res s).error_message = "Format error: " ++ e ∧
      (parse_json parse_res fmt_res s).error_message ≠ "" ∧
      (parse_json parse_res fmt_res s).parsed_value = none ∧
      (parse_json parse_res fmt_res s).formatted_json = s.formatted_json ∧
      (parse_json parse_res fmt_res s).json_tree = s.json_tree) := by
  constructor
  · rintro e rfl
    refine ⟨rfl, rfl, rfl, rfl, ?_, rfl⟩
    exact append_ne_empty_left _ e (by decide)
  · rintro v e rfl hfmt
    have hm : parse_json (Except.ok v) fmt_res s =
        { s with error_message := "Format error: " ++ e, is_valid := false,
                 parsed_value := none } := by
      simp [parse_json, hfmt]
    rw [hm]
    exact ⟨rfl, rfl, append_ne_empty_left _ e (by decide), rfl, rfl, rfl⟩

theorem c3_parse_failure_witness :
    (parse_json (Except.error "expected value") (fun _ => Except.ok "x")
        JsonUtils.new).is_valid = false ∧
    (parse_json (Except.error "expected value") (fun _ => Except.ok "x")
        JsonUtils.new).formatted_json = "" ∧
    (parse_json (Except.error "expected value") (fun _ => Except.ok "x")
        JsonUtils.new).json_tree = [] ∧
    (parse_json (Except.error "expected value") (fun _ => Except.ok "x")
        JsonUtils.new).error_message = "Invalid JSON: " ++ "expected value" ∧
    (parse_json (Except.error "expected value") (fun _ => Except.ok "x")
        JsonUtils.new).error_message ≠ "" ∧
    (parse_json (Except.error "expected value") (fun _ => Except.ok "x")
        JsonUtils.new).parsed_value = none :=
  (c3_parse_failure JsonUtils.new (Except.error "expected value")
    (fun _ => Except.ok "x")).1 "expected value" rfl

/-- Concrete prior state falsifying Claim C3 as stated on the format-failure
path: the previous pretty text and tree survive the failure. -/
def c3State : JsonUtilsState :=
  { JsonUtils.new with formatted_json := "old pretty",
                       json_tree := build_tree_list (.num (Number.ofNat 1)) }

/-- Claim C3 counterexample: when the pretty-format step fails, the
resulting state keeps the old non-empty `formatted_json` and non-empty
`json_tree`, contradicting the claimed "empty pretty text, empty tree". -/
theorem c3_counterexample :
    (parse_json (Except.ok Value.null) (fun _ => Except.error "serialization failed")
        c3State).formatted_json ≠ "" ∧
    (parse_json (Except.ok Value.null) (fun _ => Except.error "serialization failed")
        c3State).json_tree ≠ [] := by
  constructor
  · decide
  · intro h
    have := congrArg List.length h
    simp [parse_json, c3State] at this
    exact absurd (congrArg List.length this) (by decide)

/-! ## External-editor hand-off (Claim C4) and file-watch reconciliation
(Claim C8) -/

/-- The session fields installed at the end of a successful
`open_in_neovim`: temp file kept, fresh watcher queue, terminal reinit
requested. -/
def sessionFields (s : JsonUtilsState) : JsonUtilsState :=
  { s with temp_file := some (), file_watcher_rx := some [],
           needs_terminal_reinit := true }

/-- Claim C4 (amended): with non-empty text and the temp-file steps
succeeding, a spawn failure of the editor propagates as an error out of
`open_in_neovim` (the temp file content is not reconciled and the caller's
`?` chain aborts the loop), while a non-zero exit status merely sets the
status message and still reconciles the file content if it changed. -/
theorem c4_neovim_error_handling (s : JsonUtilsState) (env : EditEnv)
    (hraw : ¬ s.raw_input = "")
    (htemp : env.temp_res = .ok ()) (hwrite : env.write_res = .ok ())
    (hwatch : env.watch_res = .ok ()) :
    (∀ e, env.status_res = .error e → open_in_neovim env s = .error e) ∧
    (∀ c, env.status_res = .ok false → env.read_res = .ok c → c ≠ s.raw_input →
      open_in_neovim env s = .ok (sessionFields (parse_json env.parse_res env.fmt_res
        { s with error_message := "Failed to open Neovim", raw_input := c }))) ∧
    (∀ c, env.status_res = .ok false → env.read_res = .ok c → c = s.raw_input →
      open_in_neovim env s =
        .ok (sessionFields { s with error_message := "Failed to open Neovim" })) ∧
    (∀ c, env.status_res = .ok true → env.read_res = .ok c → c ≠ s.raw_input →
      open_in_neovim env s = .ok (sessionFields (parse_json env.parse_res env.fmt_res
        { s with raw_input := c }))) := by
  refine ⟨?_, ?_, ?_, ?_⟩
  · intro e hst
    simp [open_in_neovim, hraw, htemp, hwrite, hwatch, hst]
  · intro c hst hrd hdiff
    simp [open_in_neovim, hraw, htemp, hwrite, hwatch, hst, hrd, hdiff, sessionFields]
  · intro c hst hrd heq
    simp [open_in_neovim, hraw, htemp, hwrite, hwatch, hst, hrd, heq, sessionFields]
  · intro c hst hrd hdiff
    simp [open_in_neovim, hraw, htemp, hwrite, hwatch, hst, hrd, hdiff, sessionFields]

/-- Environment falsifying Claim C4 as stated: the editor fails to spawn
while the temp file content has changed. -/
def c4Env : EditEnv :=
  { temp_res := .ok (), write_res := .ok (), watch_res := .ok (),
    status_res := .error "No such file or directory (os error 2)",
    read_res := .ok "changed", parse_res := .error "ignored",
    fmt_res := fun _ => .ok "", path_str := "/tmp/.tmpX" }

/-- Concrete state for the Claim C4 counterexample and witness. -/
def c4State : JsonUtilsState :=
  { JsonUtils.new with raw_input := "x" }

/-- Claim C4 counterexample: on a spawn failure `open_in_neovim` returns an
error (propagated by `?` to the event loop) instead of reporting a non-fatal
message, and the changed temp-file content is not reconciled. -/
theorem c4_counterexample :
    open_in_neovim c4Env c4State = Except.error "No such file or directory (os error 2)" ∧
    c4Env.read_res = Except.ok "changed" ∧ "changed" ≠ c4State.raw_input := by
  refine ⟨rfl, rfl, by decide⟩

/-- Environment for the Claim C4 witness: editor exits non-zero, content
changed. -/
def c4EnvB : EditEnv :=
  { temp_res := .ok (), write_res := .ok (), watch_res := .ok (),
    status_res := .ok false, read_res := .ok "bye",
    parse_res := .error "expected value", fmt_res := fun _ => .ok "",
    path_str := "/tmp/.tmpX" }

theorem c4_neovim_error_handling_witness :
    open_in_neovim c4EnvB c4State = .ok (sessionFields (parse_json c4EnvB.parse_res
      c4EnvB.fmt_res { c4State with error_message := "Failed to open Neovim",
                                    raw_input := "bye" })) :=
  (c4_neovim_error_handling c4State c4EnvB (by decide) rfl rfl rfl).2.1 "bye" rfl rfl
    (by decide)

/-- Claim C8: `create_temp_file_for_editing` on non-empty text installs the
temp file and an (initially empty) watcher queue without touching the raw
text, and whenever a change notification is pending and the file content
differs from the in-memory raw text, one `check_file_changes` call (one poll
cycle) pops the notification, replaces the raw text with the file content
and re-runs the parse pipeline. -/
theorem c8_watch_reconciliation (s : JsonUtilsState) (env : EditEnv)
    (content : String) (pr : Except String Value)
    (fr : Value → Except String String)
    (hraw : ¬ s.raw_input = "") (htemp : env.temp_res = .ok ())
    (hwrite : env.write_res = .ok ()) (hwatch : env.watch_res = .ok ()) :
    (∃ s1, create_temp_file_for_editing env s = .ok s1 ∧ s1.temp_file = some () ∧
      s1.file_watcher_rx = some [] ∧ s1.raw_input = s.raw_input) ∧
    (∀ s1 : JsonUtilsState, ∀ e0 : Unit, ∀ q : List Unit,
      s1.temp_file = some () → s1.file_watcher_rx = some (e0 :: q) →
      content ≠ s1.raw_input →
      check_file_changes (.ok content) pr fr s1 =
        parse_json pr fr { s1 with raw_input := content, file_watcher_rx := some q } ∧
      (check_file_changes (.ok content) pr fr s1).raw_input = content) := by
  constructor
  · have h1 : create_temp_file_for_editing env s = .ok
        { s with
          error_message := "Edit this file: " ++ env.path_str ++
            "\nFile is being watched for changes...",
          temp_file := some (),
          file_watcher_rx := some [] } := by
      simp [create_temp_file_for_editing, hraw, htemp, hwrite, hwatch]
    exact ⟨_, h1, rfl, rfl, rfl⟩
  · intro s1 e0 q htf hrx hdiff
    have hc : check_file_changes (.ok content) pr fr s1 =
        parse_json pr fr { s1 with raw_input := content, file_watcher_rx := some q } := by
      simp [check_file_changes, hrx, htf, hdiff]
    refine ⟨hc, ?_⟩
    rw [hc, parse_json_raw_input]

/-- Concrete state for the Claim C8 witness: raw text "hi" about to be
externalized. -/
def c8State : JsonUtilsState :=
  { JsonUtils.new with raw_input := "hi" }

/-- Environment for the Claim C8 witness. -/
def c8Env : EditEnv :=
  { temp_res := .ok (), write_res := .ok (), watch_res := .ok (),
    status_res := .ok true, read_res := .ok "bye",
    parse_res := .error "expected value", fmt_res := fun _ => .ok "",
    path_str := "/tmp/.tmpW" }

/-- The externalized state after the watcher has delivered one out-of-band
change notification for the temp file (now containing "bye"). -/
def c8Delivered : JsonUtilsState :=
  { JsonUtils.new with
    raw_input := "hi",
    error_message := "Edit this file: /tmp/.tmpW\nFile is being watched for changes...",
    temp_file := some (),
    file_watcher_rx := some [()] }

theorem c8_watch_reconciliation_witness :
    (∃ s1, create_temp_file_for_editing c8Env c8State = .ok s1 ∧ s1.temp_file = some () ∧
      s1.file_watcher_rx = some [] ∧ s1.raw_input = c8State.raw_input) ∧
    (check_file_changes (.ok "bye") (Except.error "expected value") (fun _ => Except.ok "")
        c8Delivered =
      parse_json (Except.error "expected value") (fun _ => Except.ok "")
        { c8Delivered with raw_input := "bye", file_watcher_rx := some [] } ∧
      (check_file_changes (.ok "bye") (Except.error "expected value") (fun _ => Except.ok "")
        c8Delivered).raw_input = "bye") :=
  ⟨(c8_watch_reconciliation c8State c8Env "bye" (Except.error "expected value")
      (fun _ => Except.ok "") (by decide) rfl rfl rfl).1,
   (c8_watch_reconciliation c8State c8Env "bye" (Except.error "expected value")
      (fun _ => Except.ok "") (by decide) rfl rfl rfl).2 c8Delivered () [] rfl rfl (by decide)⟩

/-! ## Reachable-state selection invariant (Claim C7) -/

theorem reExpandFrom_congr {f g : Nat → Bool} :
    ∀ (l : List JsonTreeNode) (k : Nat), (∀ x, k ≤ x → f x = g x) →
      reExpandFrom f k l = reExpandFrom g k l := by
  intro l
  induction l with
  | nil => intro k h; rfl
  | cons n rest IH =>
      intro k h
      show { n with expanded := f k } :: reExpandFrom f (k + 1) rest =
        { n with expanded := g k } :: reExpandFrom g (k + 1) rest
      rw [h k (Nat.le_refl k), IH (k + 1) (fun x hx => h x (by omega))]

/-- Setting one node's `expanded` flag on a reindexed list is itself a
reassignment of expanded flags. -/
theorem reExpandFrom_set (f : Nat → Bool) (b : Bool) :
    ∀ (T : List JsonTreeNode) (k i : Nat),
      (reExpandFrom f k T).set i
          { nodeAt (reExpandFrom f k T) i with expanded := b } =
        reExpandFrom (fun x => if x = k + i then b else f x) k T := by
  intro T
  induction T with
  | nil => intro k i; rfl
  | cons n rest IH =>
      intro k i
      cases i with
      | zero =>
          show { n with expanded := b } :: reExpandFrom f (k + 1) rest =
            { n with expanded := if k = k + 0 then b else f k } ::
              reExpandFrom (fun x => if x = k + 0 then b else f x) (k + 1) rest
          rw [if_pos (by omega)]
          rw [reExpandFrom_congr rest (k + 1) (fun x hx => ?_)]
          rw [if_neg (by omega)]
      | succ j =>
          show { n with expanded := f k } ::
              (reExpandFrom f (k + 1) rest).set j
                { nodeAt (reExpandFrom f (k + 1) rest) j with expanded := b } =
            { n with expanded := if k = k + (j + 1) then b else f k } ::
              reExpandFrom (fun x => if x = k + (j + 1) then b else f x) (k + 1) rest
          rw [if_neg (by omega), IH (k + 1) j]
          have harith : k + 1 + j = k + (j + 1) := by omega
          rw [harith]

theorem reExpandFrom_self :
    ∀ (T : List JsonTreeNode) (k : Nat) (f : Nat → Bool),
      (∀ x, x < T.length → f (k + x) = (nodeAt T x).expanded) →
      reExpandFrom f k T = T := by
  intro T
  induction T with
  | nil => intro k f h; rfl
  | cons n rest IH =>
      intro k f h
      have h0 : f (k + 0) = n.expanded := h 0 (by simp)
      show { n with expanded := f k } :: reExpandFrom f (k + 1) rest = n :: rest
      have hk : f k = n.expanded := by rw [← h0]; congr 1
      rw [hk, IH (k + 1) f ?_]
      intro x hx
      have hnx : nodeAt (n :: rest) (x + 1) = nodeAt rest x := rfl
      have := h (x + 1) (by simp; omega)
      rw [hnx] at this
      rw [← this]
      congr 1
      omega

theorem exists_reExpand_self (T : List JsonTreeNode) : ∃ f, reExpand f T = T := by
  refine ⟨fun x => (nodeAt T x).expanded, reExpandFrom_self T 0 _ ?_⟩
  intro x hx
  simp

/-- `ancestorsExpanded` only depends on the depths of the nodes and the
expand flags strictly before `j`. -/
theorem ancExp_congr {T T' : List JsonTreeNode} {j : Nat}
    (hd : ∀ x, (nodeAt T' x).depth = (nodeAt T x).depth)
    (he : ∀ x, x < j → (nodeAt T' x).expanded = (nodeAt T x).expanded)
    (h : ancestorsExpanded T j) : ancestorsExpanded T' j := by
  intro i hi
  obtain ⟨hi1, hi2⟩ := hi
  rw [he i hi1]
  refine h i ⟨hi1, ?_⟩
  intro k hk1 hk2
  rw [← hd i, ← hd k]
  exact hi2 k hk1 hk2

/-- Case analysis of `toggle_node`: it is a no-op, or (in range, container)
it sets the selected node to its flipped copy. -/
theorem toggle_node_eq (s : JsonUtilsState) :
    toggle_node s = s ∨
    (s.selected_node < s.json_tree.length ∧
      toggle_node s =
        { s with json_tree := s.json_tree.set s.selected_node (flippedNode s) }) := by
  by_cases h : s.selected_node < s.json_tree.length
  · cases hc : ((nodeAt s.json_tree s.selected_node).value.is_object ||
        (nodeAt s.json_tree s.selected_node).value.is_array) with
    | true =>
        right
        exact ⟨h, by simp [toggle_node, flippedNode, h, hc]⟩
    | false =>
        left
        simp [toggle_node, h, hc]
  · left
    simp [toggle_node, h]

/-- Case analysis of `move_selection_up`: the selection is unchanged or
moves to a member of the visible list. -/
theorem move_selection_up_selected (s : JsonUtilsState) :
    (move_selection_up s).selected_node = s.selected_node ∨
    (move_selection_up s).selected_node ∈ get_visible_nodes s.json_tree := by
  simp only [move_selection_up]
  split
  · left; rfl
  · split
    · split
      · next new_index heq =>
          right
          exact List.getElem?_mem heq
      · left; rfl
    · left; rfl

/-- Case analysis of `move_selection_down`: the selection is unchanged or
moves to a member of the visible list. -/
theorem move_selection_down_selected (s : JsonUtilsState) :
    (move_selection_down s).selected_node = s.selected_node ∨
    (move_selection_down s).selected_node ∈ get_visible_nodes s.json_tree := by
  simp only [move_selection_down]
  split
  · left; rfl
  · split
    · split
      · next new_index heq =>
          right
          exact List.getElem?_mem heq
      · left; rfl
    · left; rfl

/-- The state-mutating operations of the navigation/parse core; the parse
operation carries the outcomes of the external `serde_json` calls. -/
inductive JsonOp where
  | parse : Except String Value → (Value → Except String String) → JsonOp
  | toggle : JsonOp
  | up : JsonOp
  | down : JsonOp

/-- One mutating operation applied to the state. -/
def stepOp : JsonOp → JsonUtilsState → JsonUtilsState
  | .parse pr fr, s => parse_json pr fr s
  | .toggle, s => toggle_node s
  | .up, s => move_selection_up s
  | .down, s => move_selection_down s

/-- States reachable from `JsonUtils::new()` by the mutating operations. -/
inductive Reachable : JsonUtilsState → Prop where
  | init : Reachable JsonUtils.new
  | step : ∀ (op : JsonOp) (s : JsonUtilsState), Reachable s → Reachable (stepOp op s)

/-- The tree is empty or a builder output with some assignment of expand
flags. -/
def TreeOK (tree : List JsonTreeNode) : Prop :=
  tree = [] ∨ ∃ v f, tree = reExpand f (build_tree_list v)

/-- The selection invariant: on a non-empty tree the selected flat index is
currently visible. -/
def SelInv (s : JsonUtilsState) : Prop :=
  s.json_tree ≠ [] → s.selected_node ∈ get_visible_nodes s.json_tree

theorem Forest_of_TreeOK {tree : List JsonTreeNode} (h : TreeOK tree) : Forest 0 tree := by
  rcases h with rfl | ⟨v, f, rfl⟩
  · exact Forest.nil 0
  · exact Forest_reExpandFrom (Forest_build_tree_recursive v "" 0 "root") f 0

theorem build_tree_list_length_pos (v : Value) : 0 < (build_tree_list v).length := by
  obtain ⟨C, hC⟩ := build_tree_recursive_cons v "" 0 "root"
  rw [build_tree_list, hC]
  simp

/-- Every mutating operation preserves the tree shape and the selection
invariant. -/
theorem inv_step (op : JsonOp) (s : JsonUtilsState) (h1 : TreeOK s.json_tree)
    (h2 : SelInv s) : TreeOK (stepOp op s).json_tree ∧ SelInv (stepOp op s) := by
  cases op with
  | parse pr fr =>
      cases pr with
      | error e =>
          have hjt : (stepOp (.parse (.error e) fr) s).json_tree = [] := by
            simp [stepOp, parse_json]
          exact ⟨Or.inl hjt, fun hne => absurd hjt hne⟩
      | ok v =>
          cases hfr : fr v with
          | error e =>
              have hjt : (stepOp (.parse (.ok v) fr) s).json_tree = s.json_tree := by
                simp [stepOp, parse_json, hfr]
              have hsel : (stepOp (.parse (.ok v) fr) s).selected_node = s.selected_node := by
                simp [stepOp, parse_json, hfr]
              refine ⟨by rw [hjt]; exact h1, ?_⟩
              intro hne
              rw [hjt] at hne ⊢
              rw [hsel]
              exact h2 hne
          | ok fstr =>
              have hjt : (stepOp (.parse (.ok v) fr) s).json_tree = build_tree_list v := by
                simp [stepOp, parse_json, hfr, build_tree]
              have hsel : (stepOp (.parse (.ok v) fr) s).selected_node = 0 := by
                simp [stepOp, parse_json, hfr, build_tree]
              refine ⟨?_, ?_⟩
              · right
                obtain ⟨f, hf⟩ := exists_reExpand_self (build_tree_list v)
                exact ⟨v, f, by rw [hjt, hf]⟩
              · intro hne
                rw [hjt, hsel]
                exact (mem_visible_iff_forest (Forest_build_tree_recursive v "" 0 "root")
                  0).mpr ⟨build_tree_list_length_pos v, ancExp_zero _⟩
  | toggle =>
      rcases toggle_node_eq s with heq | ⟨hlt, heq⟩
      · have hst : stepOp .toggle s = s := heq
        rw [hst]
        exact ⟨h1, h2⟩
      · have hst : stepOp .toggle s =
            { s with json_tree := s.json_tree.set s.selected_node (flippedNode s) } := heq
        rcases h1 with hnil | ⟨v, f, hT⟩
        · rw [hnil] at hlt
          simp at hlt
        have hT' : (stepOp .toggle s).json_tree =
            reExpandFrom (fun x => if x = 0 + s.selected_node then
              !(nodeAt (reExpandFrom f 0 (build_tree_list v)) s.selected_node).expanded
              else f x) 0 (build_tree_list v) := by
          rw [hst]
          show s.json_tree.set s.selected_node (flippedNode s) = _
          rw [flippedNode, hT]
          exact reExpandFrom_set f _ (build_tree_list v) 0 s.selected_node
        constructor
        · right
          exact ⟨v, _, hT'⟩
        · intro hne
          have hne0 : s.json_tree ≠ [] := by
            intro hc
            rw [hc] at hlt
            simp at hlt
          have hmem := h2 hne0
          have hFor : Forest 0 s.json_tree := Forest_of_TreeOK (Or.inr ⟨v, f, hT⟩)
          have hFor' : Forest 0 (stepOp .toggle s).json_tree := by
            rw [hT']
            exact Forest_reExpandFrom (Forest_build_tree_recursive v "" 0 "root") _ 0
          have hmm := (mem_visible_iff_forest hFor s.selected_node).mp hmem
          have hsel : (stepOp .toggle s).selected_node = s.selected_node := by
            rw [hst]
          rw [hsel]
          refine (mem_visible_iff_forest hFor' s.selected_node).mpr ⟨?_, ?_⟩
          · have : (stepOp .toggle s).json_tree =
                s.json_tree.set s.selected_node (flippedNode s) := by rw [hst]
            rw [this, List.length_set]
            exact hmm.1
          · have htree : (stepOp .toggle s).json_tree =
                s.json_tree.set s.selected_node (flippedNode s) := by rw [hst]
            rw [htree]
            refine ancExp_congr ?_ ?_ hmm.2
            · intro x
              by_cases hx : s.selected_node = x
              · subst hx
                rw [nodeAt_set_eq _ hlt]
                rfl
              · rw [nodeAt_set_ne _ hx]
            · intro x hxlt
              have hx : s.selected_node ≠ x := by omega
              rw [nodeAt_set_ne _ hx]
  | up =>
      have hjt : (stepOp .up s).json_tree = s.json_tree := move_selection_up_tree_eq s
      refine ⟨by rw [hjt]; exact h1, ?_⟩
      intro hne
      rw [hjt] at hne ⊢
      show (move_selection_up s).selected_node ∈ get_visible_nodes s.json_tree
      rcases move_selection_up_selected s with heq | hm
      · rw [heq]
        exact h2 hne
      · exact hm
  | down =>
      have hjt : (stepOp .down s).json_tree = s.json_tree := move_selection_down_tree_eq s
      refine ⟨by rw [hjt]; exact h1, ?_⟩
      intro hne
      rw [hjt] at hne ⊢
      show (move_selection_down s).selected_node ∈ get_visible_nodes s.json_tree
      rcases move_selection_down_selected s with heq | hm
      · rw [heq]
        exact h2 hne
      · exact hm

theorem inv_reachable (s : JsonUtilsState) (h : Reachable s) :
    TreeOK s.json_tree ∧ SelInv s := by
  induction h with
  | init => exact ⟨Or.inl rfl, fun hne => absurd rfl hne⟩
  | step op s hR IH => exact inv_step op s IH.1 IH.2

/-- Claim C7 (amended): in every reachable state whose tree is non-empty,
the selection index refers to a currently visible node of the flat sequence;
a failed parse, however, clears the tree without resetting the selection,
leaving the index referring to no node at all (see the counterexample). -/
theorem c7_selection_visible (s : JsonUtilsState) (h : Reachable s)
    (hne : s.json_tree ≠ []) :
    s.selected_node ∈ get_visible_nodes s.json_tree :=
  (inv_reachable s h).2 hne

/-- A successful-parse outcome used by the Claim C7 scenarios. -/
def c7FmtOk : Value → Except String String := fun _ => Except.ok "pretty"

/-- Reachable state falsifying Claim C7 as stated: parse a two-node object,
move down (selection 1), then feed a malformed parse: the tree is cleared
while the selection stays 1, referring to no (visible) node. -/
def c7BadState : JsonUtilsState :=
  stepOp (.parse (.error "expected value") c7FmtOk)
    (stepOp .down
      (stepOp (.parse (.ok (.obj [("a", .num (Number.ofNat 1))])) c7FmtOk) JsonUtils.new))

/-- Claim C7 counterexample: after the parse-failure operation the selection
index (1) is not a visible node — the tree is empty — so the invariant does
not hold in every reachable state. -/
theorem c7_counterexample :
    Reachable c7BadState ∧
    c7BadState.selected_node ∉ get_visible_nodes c7BadState.json_tree ∧
    c7BadState.json_tree.length = 0 ∧ c7BadState.selected_node = 1 :=
  ⟨Reachable.step _ _ (Reachable.step _ _ (Reachable.step _ _ Reachable.init)),
   by decide, by decide, by decide⟩

/-- Concrete reachable state (non-empty tree) for the Claim C7 witness. -/
def c7GoodState : JsonUtilsState :=
  stepOp .down (stepOp (.parse (.ok (.obj [("a", .num (Number.ofNat 1))])) c7FmtOk) JsonUtils.new)

theorem c7_selection_visible_witness :
    0 < c7GoodState.json_tree.length ∧
    c7GoodState.selected_node ∈ get_visible_nodes c7GoodState.json_tree :=
  ⟨by decide,
   c7_selection_visible c7GoodState
     (Reachable.step _ _ (Reachable.step _ _ Reachable.init))
     (fun hcon => absurd (congrArg List.length hcon) (by decide))⟩

/-! ## Round-trip of the parse/format pipeline (Claim C5)

The `serde_json` parser and pretty-printer are external library code; the
spec fixes their contract (multi-line 2-space pretty output whose reparse is
structurally equal).  Modelled from the spec: `prettyPrinted` renders a
`Value` in `to_string_pretty` style (2-space indentation, one element or
field per line, JSON string escaping) and `parseJsonText` is a
recursive-descent JSON parser; numbers are the integers of the `Value`
model. -/

def digitChar (n : Nat) : Char := Char.ofNat (48 + n)

def natDigits (n : Nat) : List Char :=
  if n < 10 then [digitChar n]
  else natDigits (n / 10) ++ [digitChar (n % 10)]
termination_by n
decreasing_by exact Nat.div_lt_self (by omega) (by omega)

/-- The fraction part of a decimal literal: nothing, or `.` and the digits. -/
def fracChars (fr : List (Fin 10)) : List Char :=
  match fr with
  | [] => []
  | _ :: _ => '.' :: fr.map (fun d => digitChar d.val)

/-- The decimal literal of a `Number`: optional sign, integer part, optional
fraction. -/
def numChars (j : Number) : List Char :=
  (if j.neg then ['-'] else []) ++ (natDigits j.ip ++ fracChars j.fr)

def hexDigit (n : Nat) : Char := if n < 10 then Char.ofNat (48 + n) else Char.ofNat (87 + n)

def escChar (c : Char) : List Char :=
  if c = '"' then ['\\', '"']
  else if c = '\\' then ['\\', '\\']
  else if c.toNat < 32 then
    ['\\', 'u', '0', '0', hexDigit (c.toNat / 16), hexDigit (c.toNat % 16)]
  else [c]

def escStr : List Char → List Char
  | [] => []
  | c :: rest => escChar c ++ escStr rest

def quoteChars (s : String) : List Char := '"' :: (escStr s.data ++ ['"'])

def twoSpaces (ind : Nat) : List Char := List.replicate (2 * ind) ' '

def lbrace : Char := Char.ofNat 123

def rbrace : Char := Char.ofNat 125

mutual

/-- `serde_json::to_string_pretty` on the `Value` model, at indentation
level `ind`, as a character list. -/
def prettyChars : Value → Nat → List Char
  | .null, _ => ['n', 'u', 'l', 'l']
  | .bool true, _ => ['t', 'r', 'u', 'e']
  | .bool false, _ => ['f', 'a', 'l', 's', 'e']
  | .num j, _ => numChars j
  | .str s, _ => quoteChars s
  | .arr [], _ => ['[', ']']
  | .arr (x :: xs), ind =>
      '[' :: '\n' :: (prettyElems (x :: xs) (ind + 1) ++
        '\n' :: (twoSpaces ind ++ [']']))
  | .obj [], _ => [lbrace, rbrace]
  | .obj (p :: ps), ind =>
      lbrace :: '\n' :: (prettyFields (p :: ps) (ind + 1) ++
        '\n' :: (twoSpaces ind ++ [rbrace]))

def prettyElems : List Value → Nat → List Char
  | [], _ => []
  | [x], ind => twoSpaces ind ++ prettyChars x ind
  | x :: y :: xs, ind =>
      twoSpaces ind ++ (prettyChars x ind ++ ',' :: '\n' :: prettyElems (y :: xs) ind)

def prettyFields : List (String × Value) → Nat → List Char
  | [], _ => []
  | [(k, v)], ind => twoSpaces ind ++ (quoteChars k ++ ':' :: ' ' :: prettyChars v ind)
  | (k, v) :: q :: ps, ind =>
      twoSpaces ind ++ (quoteChars k ++ ':' :: ' ' :: (prettyChars v ind ++
        ',' :: '\n' :: prettyFields (q :: ps) ind))

end

/-- The pretty rendering of a `Value` (spec §4.1: canonical multi-line
2-space pretty print). -/
def prettyPrinted (v : Value) : String := String.mk (prettyChars v 0)

def isWsChar (c : Char) : Bool := c = ' ' || c = '\n' || c = '\t' || c = '\r'

def skipWs : List Char → List Char
  | [] => []
  | c :: rest => if isWsChar c then skipWs rest else c :: rest

def hexVal (c : Char) : Option Nat :=
  if c.isDigit then some (c.toNat - 48)
  else if 'a' ≤ c ∧ c ≤ 'f' then some (c.toNat - 87)
  else if 'A' ≤ c ∧ c ≤ 'F' then some (c.toNat - 55)
  else none

def unescape (e : Char) : Option Char :=
  if e = '"' then some '"'
  else if e = '\\' then some '\\'
  else if e = '/' then some '/'
  else if e = 'n' then some '\n'
  else if e = 't' then some '\t'
  else if e = 'r' then some '\r'
  else if e = 'b' then some (Char.ofNat 8)
  else if e = 'f' then some (Char.ofNat 12)
  else none

/-- JSON string-body parser (after the opening quote), fuelled by one unit
per produced character. -/
def parseStrBody : Nat → List Char → Option (List Char × List Char)
  | 0, _ => none
  | _ + 1, [] => none
  | fuel + 1, c :: rest =>
    if c = '"' then some ([], rest)
    else if c = '\\' then
      match rest with
      | [] => none
      | e :: rest2 =>
        if e = 'u' then
          match rest2 with
          | d1 :: d2 :: d3 :: d4 :: rest6 =>
            match hexVal d1, hexVal d2, hexVal d3, hexVal d4 with
            | some v1, some v2, some v3, some v4 =>
                match parseStrBody fuel rest6 with
                | some (l, r) =>
                    some (Char.ofNat (((v1 * 16 + v2) * 16 + v3) * 16 + v4) :: l, r)
                | none => none
            | _, _, _, _ => none
          | _ => none
        else
          match unescape e with
          | some u =>
              match parseStrBody fuel rest2 with
              | some (l, r) => some (u :: l, r)
              | none => none
          | none => none
    else
      match parseStrBody fuel rest with
      | some (l, r) => some (c :: l, r)
      | none => none

def parseDigits : List Char → Nat → Nat × List Char
  | [], acc => (acc, [])
  | c :: rest, acc =>
      if c.isDigit then parseDigits rest (acc * 10 + (c.toNat - 48))
      else (acc, c :: rest)

theorem isDigit_toNat {c : Char} (h : c.isDigit = true) : 48 ≤ c.toNat ∧ c.toNat ≤ 57 := by
  simp [Char.isDigit] at h
  exact h

/-- Greedily read decimal digits off the front of the input, as digit
values. -/
def digitFins : List Char → List (Fin 10) × List Char
  | [] => ([], [])
  | c :: rest =>
      if h : c.isDigit then
        let p := digitFins rest
        (⟨c.toNat - 48, by have := isDigit_toNat h; omega⟩ :: p.1, p.2)
      else ([], c :: rest)

/-- Finish a number literal whose sign and integer part are already read:
consume `.digits` if present, and build the `Value`. -/
def parseNumTail (neg : Bool) (m : Nat) (r : List Char) : Value × List Char :=
  match r with
  | c :: d2 :: r2 =>
      if c = '.' ∧ d2.isDigit then
        let p := digitFins (d2 :: r2)
        (.num ⟨neg, m, p.1⟩, p.2)
      else (.num ⟨neg, m, []⟩, r)
  | _ => (.num ⟨neg, m, []⟩, r)

mutual

/-- Recursive-descent JSON value parser (fuelled). -/
def parseValueF : Nat → List Char → Option (Value × List Char)
  | 0, _ => none
  | fuel + 1, input =>
    match skipWs input with
    | [] => none
    | c :: rest =>
      if c = 'n' then
        match rest with
        | c1 :: c2 :: c3 :: r =>
            if c1 = 'u' ∧ c2 = 'l' ∧ c3 = 'l' then some (.null, r) else none
        | _ => none
      else if c = 't' then
        match rest with
        | c1 :: c2 :: c3 :: r =>
            if c1 = 'r' ∧ c2 = 'u' ∧ c3 = 'e' then some (.bool true, r) else none
        | _ => none
      else if c = 'f' then
        match rest with
        | c1 :: c2 :: c3 :: c4 :: r =>
            if c1 = 'a' ∧ c2 = 'l' ∧ c3 = 's' ∧ c4 = 'e' then some (.bool false, r)
            else none
        | _ => none
      else if c = '"' then
        match parseStrBody fuel rest with
        | some (l, r) => some (.str (String.mk l), r)
        | none => none
      else if c = '[' then
        match skipWs rest with
        | [] => none
        | c2 :: r2 =>
          if c2 = ']' then some (.arr [], r2)
          else
            match parseElemsF fuel (c2 :: r2) with
            | some (xs, r3) => some (.arr xs, r3)
            | none => none
      else if c = lbrace then
        match skipWs rest with
        | [] => none
        | c2 :: r2 =>
          if c2 = rbrace then some (.obj [], r2)
          else
            match parseFieldsF fuel (c2 :: r2) with
            | some (fs, r3) => some (.obj fs, r3)
            | none => none
      else if c = '-' then
        match rest with
        | [] => none
        | d :: _ =>
          if d.isDigit then
            match parseDigits rest 0 with
            | (m, r) => some (parseNumTail true m r)
          else none
      else if c.isDigit then
        match parseDigits (c :: rest) 0 with
        | (m, r) => some (parseNumTail false m r)
      else none

/-- Array-element list parser: elements separated by `,`, terminated by `]`
(which it consumes). -/
def parseElemsF : Nat → List Char → Option (List Value × List Char)
  | 0, _ => none
  | fuel + 1, input =>
    match parseValueF fuel input with
    | none => none
    | some (v, r) =>
      match skipWs r with
      | [] => none
      | c2 :: r2 =>
        if c2 = ',' then
          match parseElemsF fuel r2 with
          | some (xs, r3) => some (v :: xs, r3)
          | none => none
        else if c2 = ']' then some ([v], r2)
        else none

/-- Object-member list parser: `"key": value` pairs separated by `,`,
terminated by the closing brace (which it consumes). -/
def parseFieldsF : Nat → List Char → Option (List (String × Value) × List Char)
  | 0, _ => none
  | fuel + 1, input =>
    match skipWs input with
    | [] => none
    | c0 :: r =>
      if c0 = '"' then
        match parseStrBody fuel r with
        | none => none
        | some (k, r2) =>
          match skipWs r2 with
          | [] => none
          | c1 :: r3 =>
            if c1 = ':' then
              match parseValueF fuel r3 with
              | none => none
              | some (v, r4) =>
                match skipWs r4 with
                | [] => none
                | c2 :: r5 =>
                  if c2 = ',' then
                    match parseFieldsF fuel r5 with
                    | some (fs, r6) => some ((String.mk k, v) :: fs, r6)
                    | none => none
                  else if c2 = rbrace then some ([(String.mk k, v)], r5)
                  else none
            else none
      else none

end

/-- `serde_json::from_str` on the model: parse one JSON value and require
only whitespace afterwards. -/
def parseJsonText (s : String) : Option Value :=
  match parseValueF (s.length + 1) s.data with
  | some (v, rest) => if skipWs rest = [] then some v else none
  | none => none

mutual

/-- Fuel weight of a value: enough parser steps to consume its rendering. -/
def vWeight : Value → Nat
  | .null => 1
  | .bool _ => 1
  | .num _ => 1
  | .str s => 1 + s.length
  | .arr xs => 1 + lWeight xs
  | .obj fs => 1 + fWeight fs

def lWeight : List Value → Nat
  | [] => 1
  | x :: xs => 1 + vWeight x + lWeight xs

def fWeight : List (String × Value) → Nat
  | [] => 1
  | (k, v) :: fs => 1 + k.length + vWeight v + fWeight fs

end

theorem char_ofNat_toNat (c : Char) : Char.ofNat c.toNat = c := by
  have hv : Nat.isValidChar c.toNat := c.valid
  simp only [Char.ofNat, hv, dite_true]
  apply Char.eq_of_val_eq
  apply UInt32.ext
  rfl

theorem skipWs_cons_ws {c : Char} (h : isWsChar c = true) (rest : List Char) :
    skipWs (c :: rest) = skipWs rest := by
  simp [skipWs, h]

theorem skipWs_cons_not_ws {c : Char} (h : isWsChar c = false) (rest : List Char) :
    skipWs (c :: rest) = c :: rest := by
  simp [skipWs, h]

theorem skipWs_append_ws :
    ∀ (ws l : List Char), (∀ c ∈ ws, isWsChar c = true) → skipWs (ws ++ l) = skipWs l := by
  intro ws
  induction ws with
  | nil => intro l h; rfl
  | cons c rest IH =>
      intro l h
      rw [List.cons_append, skipWs_cons_ws (h c (by simp))]
      exact IH l (fun c2 hc2 => h c2 (by simp [hc2]))

theorem twoSpaces_ws (ind : Nat) : ∀ c ∈ twoSpaces ind, isWsChar c = true := by
  intro c hc
  have := List.eq_of_mem_replicate hc
  subst this
  decide

theorem skipWs_twoSpaces (ind : Nat) (l : List Char) :
    skipWs (twoSpaces ind ++ l) = skipWs l :=
  skipWs_append_ws _ _ (twoSpaces_ws ind)

theorem digitChar_facts (m : Nat) (h : m < 10) :
    (digitChar m).isDigit = true ∧ (digitChar m).toNat = 48 + m ∧
    isWsChar (digitChar m) = false ∧ digitChar m ≠ ']' ∧ digitChar m ≠ rbrace ∧
    digitChar m ≠ 'n' ∧ digitChar m ≠ 't' ∧ digitChar m ≠ 'f' ∧ digitChar m ≠ '"' ∧
    digitChar m ≠ '[' ∧ digitChar m ≠ lbrace ∧ digitChar m ≠ '-' := by
  interval_cases m <;> decide

theorem hexVal_hexDigit (m : Nat) (h : m < 16) : hexVal (hexDigit m) = some m := by
  interval_cases m <;> decide

theorem natDigits_head (n : Nat) : ∃ m t, natDigits n = digitChar m :: t ∧ m < 10 := by
  induction n using Nat.strong_induction_on with
  | _ n IH =>
      unfold natDigits
      split
      · next h => exact ⟨n, [], rfl, h⟩
      · next h =>
          obtain ⟨m, t, ht, hm⟩ := IH (n / 10) (Nat.div_lt_self (by omega) (by omega))
          refine ⟨m, t ++ [digitChar (n % 10)], ?_, hm⟩
          rw [ht]
          rfl

/-- The input does not begin with a decimal digit (so the greedy number
parser stops exactly here). -/
def notDigitStart (l : List Char) : Prop := ∀ c t, l = c :: t → c.isDigit = false

theorem parseDigits_stop (l : List Char) (m : Nat) (h : notDigitStart l) :
    parseDigits l m = (m, l) := by
  cases l with
  | nil => rfl
  | cons c t => simp [parseDigits, h c t rfl]

theorem parseDigits_natDigits :
    ∀ (n : Nat) (rest : List Char) (acc : Nat),
      parseDigits (natDigits n ++ rest) acc =
        parseDigits rest (acc * 10 ^ (natDigits n).length + n) := by
  intro n
  induction n using Nat.strong_induction_on with
  | _ n IH =>
      intro rest acc
      unfold natDigits
      split
      · next h =>
          obtain ⟨hdig, htn, _⟩ := digitChar_facts n h
          show parseDigits (digitChar n :: rest) acc = _
          rw [parseDigits]
          simp only [hdig, if_true, htn]
          have harith : acc * 10 + (48 + n - 48) = acc * 10 ^ ([digitChar n].length) + n := by
            rw [List.length_singleton, pow_one]
            omega
          rw [harith]
      · next h =>
          rw [List.append_assoc, IH (n / 10) (Nat.div_lt_self (by omega) (by omega))]
          obtain ⟨hdig, htn, _⟩ := digitChar_facts (n % 10) (by omega)
          show parseDigits (digitChar (n % 10) :: rest) _ = _
          rw [parseDigits]
          simp only [hdig, if_true, htn]
          have harith : (acc * 10 ^ (natDigits (n / 10)).length + n / 10) * 10 +
              (48 + n % 10 - 48) =
              acc * 10 ^ ((natDigits (n / 10) ++ [digitChar (n % 10)]).length) + n := by
            rw [List.length_append, List.length_singleton, pow_succ, ← Nat.mul_assoc]
            omega
          rw [harith]

theorem parseStrBody_escStr :
    ∀ (l rest : List Char) (fuel : Nat), l.length < fuel →
      parseStrBody fuel (escStr l ++ '"' :: rest) = some (l, rest) := by
  intro l
  induction l with
  | nil =>
      intro rest fuel hf
      obtain ⟨g, rfl⟩ : ∃ g, fuel = g + 1 := ⟨fuel - 1, by omega⟩
      show parseStrBody (g + 1) ('"' :: rest) = some ([], rest)
      simp [parseStrBody]
  | cons c l' IH =>
      intro rest fuel hf
      obtain ⟨g, rfl⟩ : ∃ g, fuel = g + 1 := ⟨fuel - 1, by omega⟩
      have hlen : l'.length < g := by
        rw [List.length_cons] at hf
        omega
      have hIH := IH rest g hlen
      show parseStrBody (g + 1) ((escChar c ++ escStr l') ++ '"' :: rest) = some (c :: l', rest)
      by_cases hc1 : c = '"'
      · subst hc1
        have hesc : escChar '"' = ['\\', '"'] := by decide
        rw [hesc]
        simp [parseStrBody, unescape, hIH]
      · by_cases hc2 : c = '\\'
        · subst hc2
          have hesc : escChar '\\' = ['\\', '\\'] := by decide
          rw [hesc]
          simp [parseStrBody, unescape, hIH]
        · by_cases hc3 : c.toNat < 32
          · have hesc : escChar c =
                ['\\', 'u', '0', '0', hexDigit (c.toNat / 16), hexDigit (c.toNat % 16)] := by
              simp [escChar, hc1, hc2, hc3]
            rw [hesc]
            have h0 : hexVal '0' = some 0 := by decide
            have h3 : hexVal (hexDigit (c.toNat / 16)) = some (c.toNat / 16) :=
              hexVal_hexDigit _ (by omega)
            have h4 : hexVal (hexDigit (c.toNat % 16)) = some (c.toNat % 16) :=
              hexVal_hexDigit _ (by omega)
            have hval : c.toNat / 16 * 16 + c.toNat % 16 = c.toNat := by
              omega
            simp [parseStrBody, h0, h3, h4, hIH, hval, char_ofNat_toNat]
          · have hesc : escChar c = [c] := by
              simp [escChar, hc1, hc2, hc3]
            rw [hesc]
            simp [parseStrBody, hc1, hc2, hIH]

theorem escStr_length_ge : ∀ l : List Char, l.length ≤ (escStr l).length := by
  intro l
  induction l with
  | nil => simp [escStr]
  | cons c rest IH =>
      show rest.length + 1 ≤ (escChar c ++ escStr rest).length
      rw [List.length_append]
      have h1 : 1 ≤ (escChar c).length := by
        unfold escChar
        split
        · simp
        · split
          · simp
          · split <;> simp
      omega

/-- The first character of a pretty-printed value: never whitespace, and
never a closing bracket or brace. -/
theorem prettyChars_head (v : Value) (ind : Nat) :
    ∃ c t, prettyChars v ind = c :: t ∧ isWsChar c = false ∧ c ≠ ']' ∧ c ≠ rbrace := by
  cases v with
  | null =>
      refine ⟨'n', _, rfl, ?_, ?_, ?_⟩ <;> decide
  | bool b =>
      cases b with
      | true => refine ⟨'t', _, rfl, ?_, ?_, ?_⟩ <;> decide
      | false => refine ⟨'f', _, rfl, ?_, ?_, ?_⟩ <;> decide
  | num j =>
      obtain ⟨neg, ip, fr⟩ := j
      cases neg with
      | true =>
          refine ⟨'-', natDigits ip ++ fracChars fr, ?_, ?_, ?_, ?_⟩
          · show numChars ⟨true, ip, fr⟩ = _
            simp [numChars]
          · decide
          · decide
          · decide
      | false =>
          obtain ⟨m, t, ht, hm⟩ := natDigits_head ip
          obtain ⟨_, _, hws, hrb, hrb2, _⟩ := digitChar_facts m hm
          refine ⟨digitChar m, t ++ fracChars fr, ?_, hws, hrb, hrb2⟩
          show numChars ⟨false, ip, fr⟩ = _
          simp [numChars, ht]
  | str s =>
      refine ⟨'"', _, rfl, ?_, ?_, ?_⟩ <;> decide
  | arr xs =>
      cases xs with
      | nil => refine ⟨'[', _, rfl, ?_, ?_, ?_⟩ <;> decide
      | cons x xs => refine ⟨'[', _, rfl, ?_, ?_, ?_⟩ <;> decide
  | obj fs =>
      cases fs with
      | nil => refine ⟨lbrace, _, rfl, ?_, ?_, ?_⟩ <;> decide
      | cons p ps => refine ⟨lbrace, _, rfl, ?_, ?_, ?_⟩ <;> decide

mutual

theorem vWeight_le_pretty (v : Value) : ∀ ind : Nat, vWeight v ≤ (prettyChars v ind).length := by
  intro ind
  cases v with
  | null => simp [prettyChars, vWeight]
  | bool b => cases b <;> simp [prettyChars, vWeight]
  | num j =>
      show vWeight (.num j) ≤ (numChars j).length
      obtain ⟨m, t, ht, _⟩ := natDigits_head j.ip
      simp [vWeight, numChars, ht]
      omega
  | str s =>
      show 1 + s.length ≤ (quoteChars s).length
      have := escStr_length_ge s.data
      have hsl : s.length = s.data.length := rfl
      simp [quoteChars, List.length_append]
      omega
  | arr xs =>
      cases xs with
      | nil => simp [prettyChars, vWeight, lWeight]
      | cons x xs =>
          have hE := lWeight_le_prettyElems (x :: xs) (ind + 1) (by omega) (by simp)
          show 1 + lWeight (x :: xs) ≤ _
          simp only [prettyChars, List.length_cons, List.length_append, twoSpaces,
            List.length_replicate, List.length_singleton]
          omega
  | obj fs =>
      cases fs with
      | nil => simp [prettyChars, vWeight, fWeight]
      | cons p ps =>
          have hF := fWeight_le_prettyFields (p :: ps) (ind + 1) (by omega) (by simp)
          obtain ⟨k, v⟩ := p
          show 1 + fWeight ((k, v) :: ps) ≤ _
          simp only [prettyChars, List.length_cons, List.length_append, twoSpaces,
            List.length_replicate, List.length_singleton]
          omega

theorem lWeight_le_prettyElems (xs : List Value) :
    ∀ ind : Nat, 1 ≤ ind → xs ≠ [] → lWeight xs ≤ (prettyElems xs ind).length := by
  intro ind hind hne
  cases xs with
  | nil => exact absurd rfl hne
  | cons x ys =>
      cases ys with
      | nil =>
          have hV := vWeight_le_pretty x ind
          show 1 + vWeight x + 1 ≤ (twoSpaces ind ++ prettyChars x ind).length
          simp only [List.length_append, twoSpaces, List.length_replicate]
          omega
      | cons y yt =>
          have hV := vWeight_le_pretty x ind
          have hE := lWeight_le_prettyElems (y :: yt) ind hind (by simp)
          show 1 + vWeight x + lWeight (y :: yt) ≤ _
          simp only [prettyElems, List.length_append, twoSpaces, List.length_replicate,
            List.length_cons]
          omega

theorem fWeight_le_prettyFields (ps : List (String × Value)) :
    ∀ ind : Nat, 1 ≤ ind → ps ≠ [] → fWeight ps ≤ (prettyFields ps ind).length := by
  intro ind hind hne
  cases ps with
  | nil => exact absurd rfl hne
  | cons p qs =>
      cases qs with
      | nil =>
          obtain ⟨k, v⟩ := p
          have hV := vWeight_le_pretty v ind
          have hK := escStr_length_ge k.data
          have hkl : k.length = k.data.length := rfl
          show 1 + k.length + vWeight v + 1 ≤
            (twoSpaces ind ++ (quoteChars k ++ ':' :: ' ' :: prettyChars v ind)).length
          simp only [List.length_append, twoSpaces, List.length_replicate, quoteChars,
            List.length_cons]
          omega
      | cons q qt =>
          have hF := fWeight_le_prettyFields (q :: qt) ind hind (by simp)
          obtain ⟨k, v⟩ := p
          have hV := vWeight_le_pretty v ind
          have hK := escStr_length_ge k.data
          have hkl : k.length = k.data.length := rfl
          show 1 + k.length + vWeight v + fWeight (q :: qt) ≤ _
          simp only [prettyFields, List.length_append, twoSpaces, List.length_replicate,
            quoteChars, List.length_cons]
          omega

end

/-- Whitespace-only character lists. -/
def wsOnly (l : List Char) : Prop := ∀ c ∈ l, isWsChar c = true

theorem notDigitStart_cons {c : Char} (h : c.isDigit = false) (t : List Char) :
    notDigitStart (c :: t) := by
  intro c2 t2 he
  obtain ⟨rfl, rfl⟩ := List.cons.inj he
  exact h

/-- The input cannot extend a number literal: it starts with neither a digit
nor a decimal point (so the greedy number parser stops exactly here). -/
def numBoundary (l : List Char) : Prop :=
  ∀ c t, l = c :: t → c.isDigit = false ∧ c ≠ '.'

theorem numBoundary_cons {c : Char} (h1 : c.isDigit = false) (h2 : c ≠ '.')
    (t : List Char) : numBoundary (c :: t) := by
  intro c2 t2 he
  obtain ⟨rfl, rfl⟩ := List.cons.inj he
  exact ⟨h1, h2⟩

theorem notDigitStart_of_numBoundary {l : List Char} (h : numBoundary l) :
    notDigitStart l :=
  fun c t he => (h c t he).1

theorem digitFins_map (fr : List (Fin 10)) :
    ∀ rest : List Char, notDigitStart rest →
      digitFins (fr.map (fun d => digitChar d.val) ++ rest) = (fr, rest) := by
  induction fr with
  | nil =>
      intro rest h
      cases rest with
      | nil => rfl
      | cons c t => simp [digitFins, h c t rfl]
  | cons d ds IH =>
      intro rest h
      have hdig := (digitChar_facts d.val d.isLt).1
      have htn := (digitChar_facts d.val d.isLt).2.1
      show digitFins (digitChar d.val :: (ds.map _ ++ rest)) = (d :: ds, rest)
      simp [digitFins, hdig, IH rest h, Fin.ext_iff, htn]

theorem parseNumTail_empty (neg : Bool) (m : Nat) (r : List Char) (h : numBoundary r) :
    parseNumTail neg m r = (.num ⟨neg, m, []⟩, r) := by
  cases r with
  | nil => rfl
  | cons c t =>
      cases t with
      | nil => rfl
      | cons d2 r2 =>
          have hc := h c (d2 :: r2) rfl
          simp [parseNumTail, hc.2]

theorem parseNumTail_frac (neg : Bool) (m : Nat) (d : Fin 10) (ds : List (Fin 10))
    (rest : List Char) (h : notDigitStart rest) :
    parseNumTail neg m ('.' :: ((d :: ds).map (fun e => digitChar e.val) ++ rest)) =
      (.num ⟨neg, m, d :: ds⟩, rest) := by
  have hdig := (digitChar_facts d.val d.isLt).1
  have hd := digitFins_map (d :: ds) rest h
  show parseNumTail neg m ('.' :: digitChar d.val :: (ds.map _ ++ rest)) = _
  simp only [List.map_cons, List.cons_append] at hd
  simp [parseNumTail, hdig, hd]

theorem parseValueF_ws (fuel : Nat) (ws l : List Char) (h : wsOnly ws) :
    parseValueF fuel (ws ++ l) = parseValueF fuel l := by
  cases fuel with
  | zero => rfl
  | succ g =>
      show parseValueF (g + 1) (ws ++ l) = parseValueF (g + 1) l
      simp only [parseValueF]
      rw [skipWs_append_ws ws l h]

theorem parseElemsF_ws (fuel : Nat) (ws l : List Char) (h : wsOnly ws) :
    parseElemsF fuel (ws ++ l) = parseElemsF fuel l := by
  cases fuel with
  | zero => rfl
  | succ g =>
      show parseElemsF (g + 1) (ws ++ l) = parseElemsF (g + 1) l
      simp only [parseElemsF]
      rw [parseValueF_ws g ws l h]

theorem parseFieldsF_ws (fuel : Nat) (ws l : List Char) (h : wsOnly ws) :
    parseFieldsF fuel (ws ++ l) = parseFieldsF fuel l := by
  cases fuel with
  | zero => rfl
  | succ g =>
      show parseFieldsF (g + 1) (ws ++ l) = parseFieldsF (g + 1) l
      simp only [parseFieldsF]
      rw [skipWs_append_ws ws l h]

/-- What follows one printed array element: either the final newline, indent
and `]`, or a comma, newline and the remaining printed elements. -/
def elemsSep (ys : List Value) (ind : Nat) (ws1 rest : List Char) : List Char :=
  match ys with
  | [] => '\n' :: (ws1 ++ (']' :: rest))
  | y :: yt => ',' :: '\n' :: (prettyElems (y :: yt) ind ++ ('\n' :: (ws1 ++ (']' :: rest))))

/-- What follows one printed object member: closing brace or comma and the
remaining printed members. -/
def fieldsSep (qs : List (String × Value)) (ind : Nat) (ws1 rest : List Char) : List Char :=
  match qs with
  | [] => '\n' :: (ws1 ++ (rbrace :: rest))
  | q :: qt => ',' :: '\n' :: (prettyFields (q :: qt) ind ++ ('\n' :: (ws1 ++ (rbrace :: rest))))

theorem prettyElems_shift (x : Value) (ys : List Value) (ind : Nat) (ws1 rest : List Char) :
    prettyElems (x :: ys) ind ++ ('\n' :: (ws1 ++ (']' :: rest))) =
      twoSpaces ind ++ (prettyChars x ind ++ elemsSep ys ind ws1 rest) := by
  cases ys <;> simp [prettyElems, elemsSep]

theorem prettyFields_shift (k : String) (v : Value) (qs : List (String × Value)) (ind : Nat)
    (ws1 rest : List Char) :
    prettyFields ((k, v) :: qs) ind ++ ('\n' :: (ws1 ++ (rbrace :: rest))) =
      twoSpaces ind ++ (quoteChars k ++ ':' :: ' ' ::
        (prettyChars v ind ++ fieldsSep qs ind ws1 rest)) := by
  cases qs <;> simp [prettyFields, fieldsSep]

/-- The input handed to `parseElemsF`: the first element's rendering followed
by its separator/terminator context. -/
def elemsRender (xs : List Value) (ind : Nat) (ws1 rest : List Char) : List Char :=
  match xs with
  | [] => ws1 ++ (']' :: rest)
  | x :: ys => prettyChars x ind ++ elemsSep ys ind ws1 rest

/-- The input handed to `parseFieldsF`: the first member's rendering followed
by its separator/terminator context. -/
def fieldsRender (ps : List (String × Value)) (ind : Nat) (ws1 rest : List Char) : List Char :=
  match ps with
  | [] => ws1 ++ (rbrace :: rest)
  | (k, v) :: qs => quoteChars k ++ ':' :: ' ' :: (prettyChars v ind ++ fieldsSep qs ind ws1 rest)

theorem vWeight_pos (v : Value) : 1 ≤ vWeight v := by
  cases v <;> simp [vWeight]

theorem lWeight_pos (xs : List Value) : 1 ≤ lWeight xs := by
  cases xs with
  | nil => simp [lWeight]
  | cons x ys => simp [lWeight]; omega

theorem fWeight_pos (ps : List (String × Value)) : 1 ≤ fWeight ps := by
  cases ps with
  | nil => simp [fWeight]
  | cons p qs =>
      obtain ⟨k, w⟩ := p
      simp [fWeight]
      omega

theorem wsOnly_nl_twoSpaces (ind : Nat) : wsOnly ('\n' :: twoSpaces ind) := by
  intro c hc
  rcases List.mem_cons.mp hc with h | h
  · subst h; decide
  · exact twoSpaces_ws ind c h

theorem wsOnly_space : wsOnly [' '] := by
  intro c hc
  obtain rfl := List.mem_singleton.mp hc
  decide

mutual

/-- Parsing the pretty rendering of a value, at any indentation and followed
by any non-digit-initial remainder, recovers the value exactly. -/
theorem parse_pretty_val (v : Value) :
    ∀ (ind : Nat) (rest : List Char) (fuel : Nat), vWeight v < fuel → numBoundary rest →
      parseValueF fuel (prettyChars v ind ++ rest) = some (v, rest) := by
  intro ind rest fuel hw hnd
  obtain ⟨g, rfl⟩ : ∃ g, fuel = g + 1 := ⟨fuel - 1, by omega⟩
  cases v with
  | null =>
      show parseValueF (g + 1) ('n' :: 'u' :: 'l' :: 'l' :: rest) = some (.null, rest)
      simp +decide [parseValueF, skipWs]
  | bool b =>
      cases b with
      | true =>
          show parseValueF (g + 1) ('t' :: 'r' :: 'u' :: 'e' :: rest) = some (.bool true, rest)
          simp +decide [parseValueF, skipWs]
      | false =>
          show parseValueF (g + 1) ('f' :: 'a' :: 'l' :: 's' :: 'e' :: rest) =
            some (.bool false, rest)
          simp +decide [parseValueF, skipWs]
  | num j =>
      obtain ⟨neg, ip, fr⟩ := j
      show parseValueF (g + 1) (numChars ⟨neg, ip, fr⟩ ++ rest) = some (.num ⟨neg, ip, fr⟩, rest)
      have hnds : notDigitStart (fracChars fr ++ rest) := by
        cases fr with
        | nil =>
            intro c t he
            simp only [fracChars, List.nil_append] at he
            exact (hnd c t he).1
        | cons d ds =>
            intro c t he
            have h2 : ('.' :: ((d :: ds).map (fun e => digitChar e.val) ++ rest)) = c :: t := by
              simpa [fracChars] using he
            obtain ⟨rfl, -⟩ := List.cons.inj h2
            decide
      have hpd : parseDigits (natDigits ip ++ (fracChars fr ++ rest)) 0 =
          (ip, fracChars fr ++ rest) := by
        rw [parseDigits_natDigits, parseDigits_stop _ _ hnds]
        simp
      have hpt : ∀ b : Bool, parseNumTail b ip (fracChars fr ++ rest) =
          (.num ⟨b, ip, fr⟩, rest) := by
        intro b
        cases fr with
        | nil =>
            show parseNumTail b ip (([] : List Char) ++ rest) = _
            rw [List.nil_append]
            exact parseNumTail_empty b ip rest hnd
        | cons d ds =>
            show parseNumTail b ip
              (('.' :: (d :: ds).map (fun e => digitChar e.val)) ++ rest) = _
            rw [List.cons_append]
            exact parseNumTail_frac b ip d ds rest (notDigitStart_of_numBoundary hnd)
      obtain ⟨m, t, ht, hm⟩ := natDigits_head ip
      obtain ⟨hdig, htn, hws, hne1, hne2, hn1, hn2, hn3, hn4, hn5, hn6, hn7⟩ :=
        digitChar_facts m hm
      rw [ht] at hpd
      simp only [List.cons_append] at hpd
      cases neg with
      | true =>
          rw [show numChars ⟨true, ip, fr⟩ ++ rest =
            '-' :: (natDigits ip ++ (fracChars fr ++ rest)) from by simp [numChars]]
          rw [ht]
          simp only [List.cons_append]
          simp +decide [parseValueF, skipWs, hdig, hpd, hpt]
      | false =>
          rw [show numChars ⟨false, ip, fr⟩ ++ rest =
            natDigits ip ++ (fracChars fr ++ rest) from by simp [numChars]]
          rw [ht]
          simp only [List.cons_append]
          simp +decide [parseValueF, skipWs, hws, hn1, hn2, hn3, hn4, hn5, hn6, hn7, hdig,
            hpd, hpt]
  | str s =>
      show parseValueF (g + 1) (quoteChars s ++ rest) = some (.str s, rest)
      have hq : quoteChars s ++ rest = '"' :: (escStr s.data ++ '"' :: rest) := by
        simp [quoteChars]
      rw [hq]
      have hlen : s.data.length < g := by
        have h1 : vWeight (.str s) = 1 + s.length := rfl
        have h2 : s.length = s.data.length := rfl
        omega
      have hsb := parseStrBody_escStr s.data rest g hlen
      simp +decide [parseValueF, skipWs, hsb]
  | arr xs =>
      cases xs with
      | nil =>
          show parseValueF (g + 1) ('[' :: ']' :: rest) = some (.arr [], rest)
          simp +decide [parseValueF, skipWs]
      | cons x ys =>
          have hv : vWeight (.arr (x :: ys)) = 1 + lWeight (x :: ys) := rfl
          have hlw : lWeight (x :: ys) < g := by omega
          have hinput : prettyChars (.arr (x :: ys)) ind ++ rest =
              '[' :: '\n' :: (twoSpaces (ind + 1) ++
                (prettyChars x (ind + 1) ++ elemsSep ys (ind + 1) (twoSpaces ind) rest)) := by
            show ('[' :: '\n' :: (prettyElems (x :: ys) (ind + 1) ++
                '\n' :: (twoSpaces ind ++ [']']))) ++ rest = _
            rw [← prettyElems_shift]
            simp
          rw [hinput]
          obtain ⟨c0, t0, hph, hpw, hpr, hpb⟩ := prettyChars_head x (ind + 1)
          have hskip : skipWs ('\n' :: (twoSpaces (ind + 1) ++
              (prettyChars x (ind + 1) ++ elemsSep ys (ind + 1) (twoSpaces ind) rest))) =
              c0 :: (t0 ++ elemsSep ys (ind + 1) (twoSpaces ind) rest) := by
            rw [skipWs_cons_ws (by decide), skipWs_twoSpaces, hph, List.cons_append,
              skipWs_cons_not_ws hpw]
          have hE : parseElemsF g (c0 :: (t0 ++ elemsSep ys (ind + 1) (twoSpaces ind) rest)) =
              some (x :: ys, rest) := by
            rw [← List.cons_append, ← hph]
            have h0 := parse_pretty_elems (x :: ys) (ind + 1) (twoSpaces ind) rest g
              (by simp) hlw (twoSpaces_ws ind)
            simpa [elemsRender] using h0
          simp only [parseValueF]
          rw [skipWs_cons_not_ws (by decide : isWsChar '[' = false)]
          simp +decide [hskip, hE, hpr]
  | obj fs =>
      cases fs with
      | nil =>
          show parseValueF (g + 1) (lbrace :: rbrace :: rest) = some (.obj [], rest)
          simp +decide [parseValueF, skipWs]
      | cons p qs =>
          obtain ⟨k, w⟩ := p
          have hv : vWeight (.obj ((k, w) :: qs)) = 1 + fWeight ((k, w) :: qs) := rfl
          have hfw : fWeight ((k, w) :: qs) < g := by omega
          have hinput : prettyChars (.obj ((k, w) :: qs)) ind ++ rest =
              lbrace :: '\n' :: (twoSpaces (ind + 1) ++
                (quoteChars k ++ ':' :: ' ' :: (prettyChars w (ind + 1) ++
                  fieldsSep qs (ind + 1) (twoSpaces ind) rest))) := by
            show (lbrace :: '\n' :: (prettyFields ((k, w) :: qs) (ind + 1) ++
                '\n' :: (twoSpaces ind ++ [rbrace]))) ++ rest = _
            rw [← prettyFields_shift]
            simp
          rw [hinput]
          have hskip : skipWs ('\n' :: (twoSpaces (ind + 1) ++
              (quoteChars k ++ ':' :: ' ' :: (prettyChars w (ind + 1) ++
                fieldsSep qs (ind + 1) (twoSpaces ind) rest)))) =
              '"' :: (escStr k.data ++ '"' :: ':' :: ' ' :: (prettyChars w (ind + 1) ++
                fieldsSep qs (ind + 1) (twoSpaces ind) rest)) := by
            rw [skipWs_cons_ws (by decide), skipWs_twoSpaces]
            have hq : quoteChars k ++ (':' :: ' ' :: (prettyChars w (ind + 1) ++
                fieldsSep qs (ind + 1) (twoSpaces ind) rest)) =
                '"' :: (escStr k.data ++ '"' :: ':' :: ' ' :: (prettyChars w (ind + 1) ++
                  fieldsSep qs (ind + 1) (twoSpaces ind) rest)) := by
              simp [quoteChars]
            rw [hq, skipWs_cons_not_ws (by decide)]
          have hF : parseFieldsF g ('"' :: (escStr k.data ++ '"' :: ':' :: ' ' ::
              (prettyChars w (ind + 1) ++ fieldsSep qs (ind + 1) (twoSpaces ind) rest))) =
              some ((k, w) :: qs, rest) := by
            have h0 := parse_pretty_fields ((k, w) :: qs) (ind + 1) (twoSpaces ind) rest g
              (by simp) hfw (twoSpaces_ws ind)
            simpa [fieldsRender, quoteChars] using h0
          simp only [parseValueF]
          rw [skipWs_cons_not_ws (by decide : isWsChar lbrace = false)]
          simp +decide [hskip, hF]

/-- Parsing the rendering of a non-empty element list (with its separators
and closing bracket) recovers the list and consumes the bracket. -/
theorem parse_pretty_elems (xs : List Value) :
    ∀ (ind : Nat) (ws1 rest : List Char) (fuel : Nat), xs ≠ [] → lWeight xs < fuel →
      wsOnly ws1 → parseElemsF fuel (elemsRender xs ind ws1 rest) = some (xs, rest) := by
  intro ind ws1 rest fuel hne hw hws
  cases xs with
  | nil => exact absurd rfl hne
  | cons x ys =>
      obtain ⟨g, rfl⟩ : ∃ g, fuel = g + 1 := ⟨fuel - 1, by omega⟩
      have hvx : lWeight (x :: ys) = 1 + vWeight x + lWeight ys := rfl
      have hlp := lWeight_pos ys
      have hvp := vWeight_pos x
      have hvw : vWeight x < g := by omega
      show parseElemsF (g + 1) (prettyChars x ind ++ elemsSep ys ind ws1 rest) =
        some (x :: ys, rest)
      cases ys with
      | nil =>
          have hV := parse_pretty_val x ind ('\n' :: (ws1 ++ (']' :: rest))) g hvw
            (numBoundary_cons (by decide) (by decide) _)
          have hskip : skipWs ('\n' :: (ws1 ++ (']' :: rest))) = ']' :: rest := by
            rw [skipWs_cons_ws (by decide), skipWs_append_ws ws1 _ hws,
              skipWs_cons_not_ws (by decide)]
          simp only [elemsSep]
          simp +decide [parseElemsF, hV, hskip]
      | cons y yt =>
          have hE := parse_pretty_elems (y :: yt) ind ws1 rest g (by simp) (by omega) hws
          have hsep : elemsSep (y :: yt) ind ws1 rest =
              ',' :: '\n' :: (prettyElems (y :: yt) ind ++ ('\n' :: (ws1 ++ (']' :: rest)))) :=
            rfl
          have hV := parse_pretty_val x ind (elemsSep (y :: yt) ind ws1 rest) g hvw
            (by rw [hsep]; exact numBoundary_cons (by decide) (by decide) _)
          have hskip : skipWs (elemsSep (y :: yt) ind ws1 rest) =
              ',' :: ('\n' :: (prettyElems (y :: yt) ind ++
                ('\n' :: (ws1 ++ (']' :: rest))))) := by
            rw [hsep]
            exact skipWs_cons_not_ws (by decide) _
          have hr2 : ('\n' :: (prettyElems (y :: yt) ind ++ ('\n' :: (ws1 ++ (']' :: rest))))) =
              ('\n' :: twoSpaces ind) ++ elemsRender (y :: yt) ind ws1 rest := by
            rw [prettyElems_shift]
            simp [elemsRender]
          have hrec : parseElemsF g ('\n' :: (prettyElems (y :: yt) ind ++
              ('\n' :: (ws1 ++ (']' :: rest))))) = some (y :: yt, rest) := by
            rw [hr2, parseElemsF_ws g _ _ (wsOnly_nl_twoSpaces ind), hE]
          simp +decide [parseElemsF, hV, hskip, hrec]

/-- Parsing the rendering of a non-empty member list (with its separators
and closing brace) recovers the list and consumes the brace. -/
theorem parse_pretty_fields (ps : List (String × Value)) :
    ∀ (ind : Nat) (ws1 rest : List Char) (fuel : Nat), ps ≠ [] → fWeight ps < fuel →
      wsOnly ws1 → parseFieldsF fuel (fieldsRender ps ind ws1 rest) = some (ps, rest) := by
  intro ind ws1 rest fuel hne hw hws
  cases ps with
  | nil => exact absurd rfl hne
  | cons p qs =>
      obtain ⟨k, w⟩ := p
      obtain ⟨g, rfl⟩ : ∃ g, fuel = g + 1 := ⟨fuel - 1, by omega⟩
      have hfx : fWeight ((k, w) :: qs) = 1 + k.length + vWeight w + fWeight qs := rfl
      have hqp := fWeight_pos qs
      have hvp := vWeight_pos w
      have hkl : k.data.length = k.length := rfl
      have hklen : k.data.length < g := by omega
      have hvw : vWeight w < g := by omega
      show parseFieldsF (g + 1) (quoteChars k ++ ':' :: ' ' ::
        (prettyChars w ind ++ fieldsSep qs ind ws1 rest)) = some ((k, w) :: qs, rest)
      have hq : quoteChars k ++ (':' :: ' ' :: (prettyChars w ind ++
          fieldsSep qs ind ws1 rest)) =
          '"' :: (escStr k.data ++ '"' :: ':' :: ' ' :: (prettyChars w ind ++
            fieldsSep qs ind ws1 rest)) := by
        simp [quoteChars]
      rw [hq]
      have hsb := parseStrBody_escStr k.data
        (':' :: ' ' :: (prettyChars w ind ++ fieldsSep qs ind ws1 rest)) g hklen
      cases qs with
      | nil =>
          have hV := parse_pretty_val w ind (fieldsSep [] ind ws1 rest) g hvw
            (by rw [show fieldsSep [] ind ws1 rest = '\n' :: (ws1 ++ (rbrace :: rest))
                  from rfl]
                exact numBoundary_cons (by decide) (by decide) _)
          have hv2 : parseValueF g (' ' :: (prettyChars w ind ++
              fieldsSep [] ind ws1 rest)) = some (w, fieldsSep [] ind ws1 rest) := by
            rw [show (' ' :: (prettyChars w ind ++ fieldsSep [] ind ws1 rest)) =
                  [' '] ++ (prettyChars w ind ++ fieldsSep [] ind ws1 rest) from rfl,
              parseValueF_ws g [' '] _ wsOnly_space]
            exact hV
          have hskip2 : skipWs (ws1 ++ (rbrace :: rest)) = rbrace :: rest := by
            rw [skipWs_append_ws ws1 _ hws, skipWs_cons_not_ws (by decide)]
          simp +decide [parseFieldsF, skipWs, hsb, hv2, hskip2]
      | cons q qt =>
          obtain ⟨k2, w2⟩ := q
          have hsep : fieldsSep ((k2, w2) :: qt) ind ws1 rest =
              ',' :: '\n' :: (prettyFields ((k2, w2) :: qt) ind ++
                ('\n' :: (ws1 ++ (rbrace :: rest)))) := rfl
          have hV := parse_pretty_val w ind (fieldsSep ((k2, w2) :: qt) ind ws1 rest) g hvw
            (by rw [hsep]; exact numBoundary_cons (by decide) (by decide) _)
          have hv2 : parseValueF g (' ' :: (prettyChars w ind ++
              fieldsSep ((k2, w2) :: qt) ind ws1 rest)) =
              some (w, fieldsSep ((k2, w2) :: qt) ind ws1 rest) := by
            rw [show (' ' :: (prettyChars w ind ++
                  fieldsSep ((k2, w2) :: qt) ind ws1 rest)) =
                  [' '] ++ (prettyChars w ind ++ fieldsSep ((k2, w2) :: qt) ind ws1 rest)
                  from rfl,
              parseValueF_ws g [' '] _ wsOnly_space]
            exact hV
          have hskip2 : skipWs (fieldsSep ((k2, w2) :: qt) ind ws1 rest) =
              ',' :: ('\n' :: (prettyFields ((k2, w2) :: qt) ind ++
                ('\n' :: (ws1 ++ (rbrace :: rest))))) := by
            rw [hsep]
            exact skipWs_cons_not_ws (by decide) _
          have hfq : fWeight ((k2, w2) :: qt) < g := by omega
          have hr5 : ('\n' :: (prettyFields ((k2, w2) :: qt) ind ++
              ('\n' :: (ws1 ++ (rbrace :: rest))))) =
              ('\n' :: twoSpaces ind) ++ fieldsRender ((k2, w2) :: qt) ind ws1 rest := by
            rw [prettyFields_shift]
            simp [fieldsRender]
          have hrec : parseFieldsF g ('\n' :: (prettyFields ((k2, w2) :: qt) ind ++
              ('\n' :: (ws1 ++ (rbrace :: rest))))) = some ((k2, w2) :: qt, rest) := by
            rw [hr5, parseFieldsF_ws g _ _ (wsOnly_nl_twoSpaces ind)]
            exact parse_pretty_fields ((k2, w2) :: qt) ind ws1 rest g (by simp) hfq hws
          simp +decide [parseFieldsF, skipWs, hsb, hv2, hskip2, hrec]

end

/-- C5: for every Value `v` of the model — including decimal numbers with a
sign, integer part and fraction digits — parsing the pretty-printed rendering
of `v` yields a Value structurally equal to `v`: parse after pretty-print is
the identity, and the pretty output is syntactically valid JSON (the parse
succeeds). The printer and parser model `serde_json`'s pretty printer and
parser, with the spec's Number as an arbitrary-precision decimal literal. -/
theorem c5_pretty_parse_roundtrip (v : Value) :
    parseJsonText (prettyPrinted v) = some v := by
  have h1 := vWeight_le_pretty v 0
  have h2 : (prettyPrinted v).length = (prettyChars v 0).length := rfl
  have hlen : vWeight v < (prettyPrinted v).length + 1 := by omega
  have hV := parse_pretty_val v 0 [] ((prettyPrinted v).length + 1) hlen
    (fun c t h => absurd h (by simp))
  rw [List.append_nil] at hV
  have hdata : (prettyPrinted v).data = prettyChars v 0 := rfl
  simp only [parseJsonText]
  rw [hdata, hV]
  simp [skipWs]
